import Mathlib

/-!
Verification of the kanban-task-manager central state core.

The definitions below are shallow embeddings of the TypeScript source:
  - the boards data model (src/src/types/types.ts),
  - the drag identifier codec (src/unnamed/part_016),
  - the drag-end handler (src/unnamed/part_003),
  - the id-compatibility transform ensureTaskIds (src/unnamed/part_017),
  - the store and hydration controller (src/src/store/useStore.ts, src/unnamed/part_008),
  - the busy-key minimum-duration scheduler (src/src/context/UiContext.tsx),
and, where the reducer implementation is not part of the sources, models
built from the specification (marked in their doc comments).
Strings are kept as Lean `String` (a wrapper around `List Char`), JS numbers
that can be NaN as `Option Int`, and fallible operations as `Option`.
-/

namespace Kanban

/-- Subtask record, from src/src/types/types.ts. -/
structure Subtask where
  title : String
  isCompleted : Bool
deriving Repr, DecidableEq

/-- Task record, from src/src/types/types.ts; optional fields become `Option`. -/
structure Task where
  id : String
  title : String
  description : Option String := none
  status : Option String := none
  subtasks : Option (List Subtask) := none
deriving Repr, DecidableEq

/-- Column record, from src/src/types/types.ts. -/
structure Column where
  name : String
  tasks : List Task
deriving Repr, DecidableEq

/-- Board record, from src/src/types/types.ts. -/
structure Board where
  name : String
  columns : List Column
deriving Repr, DecidableEq

/-- Boards slice of the store state, from src/src/types/types.ts. -/
structure BoardsState where
  boards : List Board
deriving Repr, DecidableEq

/-! ### Decimal rendering and parsing of numbers (models of JS primitives) -/

/-- The character for a single decimal digit value. -/
def digitChar (d : Nat) : Char :=
  if d = 0 then '0' else if d = 1 then '1' else if d = 2 then '2'
  else if d = 3 then '3' else if d = 4 then '4' else if d = 5 then '5'
  else if d = 6 then '6' else if d = 7 then '7' else if d = 8 then '8' else '9'

/-- Fuel-driven worker for `natDigits` (structural recursion so that the
kernel can evaluate it; fuel `n + 1` always suffices). -/
def natDigitsFuel : Nat → Nat → List Char
  | 0, _ => []
  | fuel + 1, n =>
    if n < 10 then [digitChar n]
    else natDigitsFuel fuel (n / 10) ++ [digitChar (n % 10)]

/-- Decimal digit characters of a natural number, most significant first
(model of the JS template-literal rendering of a non-negative number). -/
def natDigits (n : Nat) : List Char := natDigitsFuel (n + 1) n

/-- Decimal string of a natural number (JS template-literal rendering). -/
def natToString (n : Nat) : String := String.mk (natDigits n)

/-- Numeric value of a digit character. -/
def digitVal (c : Char) : Nat := c.toNat - 48

/-- Value of a digit-character list read as a decimal numeral. -/
def digitsToNat (l : List Char) : Nat := l.foldl (fun n c => 10 * n + digitVal c) 0

/-- JS whitespace test (the characters relevant to parseInt trimming). -/
def jsWhitespace (c : Char) : Bool :=
  (c == ' ') || (c == '\t') || (c == '\n') || (c == '\r')

/-- The digit-run part of JS parseInt: longest leading run of decimal digits,
NaN (`none`) when the run is empty. -/
def jsParseIntCore (cs : List Char) : Option Nat :=
  if (cs.takeWhile Char.isDigit).isEmpty then none
  else some (digitsToNat (cs.takeWhile Char.isDigit))

/-- Model of JS `parseInt(s, 10)`: skip leading whitespace, optional sign,
then the longest leading run of decimal digits; `none` models NaN. -/
def jsParseInt (s : String) : Option Int :=
  if (s.data.dropWhile jsWhitespace).head? = some '-' then
    (jsParseIntCore (s.data.dropWhile jsWhitespace).tail).map (fun n => -(n : Int))
  else if (s.data.dropWhile jsWhitespace).head? = some '+' then
    (jsParseIntCore (s.data.dropWhile jsWhitespace).tail).map (fun n => (n : Int))
  else (jsParseIntCore (s.data.dropWhile jsWhitespace)).map (fun n => (n : Int))

/-! ### Splitting on the drag-id delimiter (model of JS String.split) -/

/-- The drag identifier delimiter used in src/unnamed/part_016. -/
def dndSep : List Char := [':', ':']

/-- Leftmost occurrence of `sep` in a character list: `some (before, after)`
splits around the first occurrence, `none` when there is none. -/
def findSep (sep : List Char) : List Char → Option (List Char × List Char)
  | [] => none
  | c :: cs =>
    if sep.isPrefixOf (c :: cs) then some ([], (c :: cs).drop sep.length)
    else (findSep sep cs).map (fun p => (c :: p.1, p.2))

/-- Fuel-driven worker for splitting on the delimiter (structural recursion so
that the kernel can evaluate it). -/
def splitOnSepFuel : Nat → List Char → List (List Char)
  | 0, l => [l]
  | fuel + 1, l =>
    match findSep dndSep l with
    | none => [l]
    | some (b, a) => b :: splitOnSepFuel fuel a

/-- Model of JS `id.split('::')`: split on each non-overlapping occurrence of
the delimiter, left to right. -/
def splitOnSep (l : List Char) : List (List Char) := splitOnSepFuel (l.length + 1) l

/-- Model of JS `parts.join('::')`. -/
def joinSep : List (List Char) → List Char
  | [] => []
  | [x] => x
  | x :: y :: rest => x ++ dndSep ++ joinSep (y :: rest)

/-! ### The drag identifier codec, from src/unnamed/part_016 -/

/-- From src/unnamed/part_016: the draggable task id is the template literal
joining board index, column name and task title with the delimiter. -/
def encodeTaskId (boardIndex : Nat) (columnName taskTitle : String) : String :=
  natToString boardIndex ++ "::" ++ columnName ++ "::" ++ taskTitle

/-- Decoded task reference; `boardIndex = none` models a NaN from parseInt. -/
structure DecodedTask where
  boardIndex : Option Int
  columnName : String
  taskTitle : String
deriving Repr, DecidableEq

/-- From src/unnamed/part_016: split the id on the delimiter; fewer than three
parts gives null; the title re-joins every part after the second. -/
def decodeTaskId (id : String) : Option DecodedTask :=
  match splitOnSep id.data with
  | p0 :: p1 :: p2 :: rest =>
    some { boardIndex := jsParseInt (String.mk p0), columnName := String.mk p1,
           taskTitle := String.mk (joinSep (p2 :: rest)) }
  | _ => none

/-- From src/unnamed/part_016: the droppable column id joins board index and
column name with the delimiter. -/
def encodeColumnId (boardIndex : Nat) (columnName : String) : String :=
  natToString boardIndex ++ "::" ++ columnName

/-- Decoded column reference; `boardIndex = none` models a NaN from parseInt. -/
structure DecodedColumn where
  boardIndex : Option Int
  columnName : String
deriving Repr, DecidableEq

/-- From src/unnamed/part_016: split the id on the delimiter; fewer than two
parts gives null; the column name is the second part (later parts ignored). -/
def decodeColumnId (id : String) : Option DecodedColumn :=
  match splitOnSep id.data with
  | p0 :: p1 :: _ => some { boardIndex := jsParseInt (String.mk p0), columnName := String.mk p1 }
  | _ => none

/-! ### Facts about the decimal rendering -/

theorem digitChar_spec (d : Nat) :
    (digitChar d).isDigit = true ∧ jsWhitespace (digitChar d) = false ∧
    digitChar d ≠ '-' ∧ digitChar d ≠ '+' ∧ digitChar d ≠ ':' := by
  unfold digitChar
  split_ifs <;> exact ⟨by decide, by decide, by decide, by decide, by decide⟩

theorem digitVal_digitChar : ∀ d, d < 10 → digitVal (digitChar d) = d := by decide

theorem natDigitsFuel_congr : ∀ (n f₁ f₂ : Nat), n < f₁ → n < f₂ →
    natDigitsFuel f₁ n = natDigitsFuel f₂ n := by
  intro n
  induction n using Nat.strong_induction_on with
  | _ n ih =>
    intro f₁ f₂ h₁ h₂
    match f₁, f₂, h₁, h₂ with
    | m₁ + 1, m₂ + 1, _, _ =>
      simp only [natDigitsFuel]
      split
      · rfl
      · rename_i hn
        have hd : n / 10 < n := Nat.div_lt_self (by omega) (by omega)
        rw [ih (n / 10) hd m₁ m₂ (by omega) (by omega)]

theorem natDigitsFuel_succ (fuel n : Nat) :
    natDigitsFuel (fuel + 1) n = if n < 10 then [digitChar n]
      else natDigitsFuel fuel (n / 10) ++ [digitChar (n % 10)] := rfl

theorem natDigits_eq (n : Nat) :
    natDigits n = if n < 10 then [digitChar n]
      else natDigits (n / 10) ++ [digitChar (n % 10)] := by
  rw [natDigits, natDigitsFuel_succ]
  split
  · rfl
  · rename_i hn
    have hd : n / 10 < n := Nat.div_lt_self (by omega) (by omega)
    rw [natDigits, natDigitsFuel_congr (n / 10) n (n / 10 + 1) (by omega) (by omega)]

theorem natDigits_mem (n : Nat) : ∀ c ∈ natDigits n, ∃ d, c = digitChar d := by
  induction n using Nat.strong_induction_on with
  | _ n ih =>
    intro c hc
    rw [natDigits_eq] at hc
    split at hc
    · simp only [List.mem_singleton] at hc
      exact ⟨n, hc⟩
    · rename_i hn
      have hd : n / 10 < n := Nat.div_lt_self (by omega) (by omega)
      rcases List.mem_append.mp hc with h | h
      · exact ih (n / 10) hd c h
      · simp only [List.mem_singleton] at h
        exact ⟨n % 10, h⟩

theorem natDigits_ne_nil (n : Nat) : natDigits n ≠ [] := by
  rw [natDigits_eq]
  split
  · simp
  · simp

theorem digitsToNat_natDigits (n : Nat) : digitsToNat (natDigits n) = n := by
  induction n using Nat.strong_induction_on with
  | _ n ih =>
    rw [natDigits_eq]
    split
    · rename_i h
      simp only [digitsToNat, List.foldl_cons, List.foldl_nil]
      rw [digitVal_digitChar n h]
      omega
    · rename_i h
      have hd : n / 10 < n := Nat.div_lt_self (by omega) (by omega)
      simp only [digitsToNat, List.foldl_append, List.foldl_cons, List.foldl_nil]
      have h1 : (natDigits (n / 10)).foldl (fun n c => 10 * n + digitVal c) 0 = n / 10 :=
        ih (n / 10) hd
      rw [h1, digitVal_digitChar (n % 10) (by omega)]
      omega

theorem takeWhile_of_forall {p : Char → Bool} :
    ∀ {l : List Char}, (∀ c ∈ l, p c = true) → l.takeWhile p = l := by
  intro l
  induction l with
  | nil => intro _; rfl
  | cons c cs ih =>
    intro h
    rw [List.takeWhile_cons, h c (by simp), ih (fun x hx => h x (by simp [hx]))]
    simp

theorem jsParseIntCore_natDigits (n : Nat) : jsParseIntCore (natDigits n) = some n := by
  have hmem := natDigits_mem n
  unfold jsParseIntCore
  rw [takeWhile_of_forall (fun x hx => by
    obtain ⟨e, he⟩ := hmem x hx
    rw [he]; exact (digitChar_spec e).1)]
  rw [show (natDigits n).isEmpty = false by
    cases h : natDigits n with
    | nil => exact absurd h (natDigits_ne_nil n)
    | cons a as => rfl]
  simp only [Bool.false_eq_true, if_false]
  rw [digitsToNat_natDigits]

theorem jsParseInt_natToString (n : Nat) : jsParseInt (natToString n) = some (n : Int) := by
  obtain ⟨c, cs, hcons⟩ : ∃ c cs, natDigits n = c :: cs := by
    cases h : natDigits n with
    | nil => exact absurd h (natDigits_ne_nil n)
    | cons c cs => exact ⟨c, cs, rfl⟩
  have hmem := natDigits_mem n
  obtain ⟨d, hd⟩ := hmem c (by rw [hcons]; simp)
  have hspec := digitChar_spec d
  have hdrop : (natToString n).data.dropWhile jsWhitespace = natDigits n := by
    have hdata : (natToString n).data = natDigits n := rfl
    rw [hdata, hcons, List.dropWhile_cons,
      show jsWhitespace c = false by rw [hd]; exact hspec.2.1]
    simp
  have hne1 : ¬ (natDigits n).head? = some '-' := by
    rw [hcons]
    simp only [List.head?_cons, Option.some.injEq]
    rw [hd]; exact hspec.2.2.1
  have hne2 : ¬ (natDigits n).head? = some '+' := by
    rw [hcons]
    simp only [List.head?_cons, Option.some.injEq]
    rw [hd]; exact hspec.2.2.2.1
  unfold jsParseInt
  rw [hdrop, if_neg hne1, if_neg hne2, jsParseIntCore_natDigits]
  rfl

/-! ### Facts about splitting on the delimiter -/

theorem dndSep_isPrefixOf_iff : ∀ {l : List Char},
    dndSep.isPrefixOf l = true ↔ ∃ t, l = ':' :: ':' :: t := by
  intro l
  match l with
  | [] => simp [dndSep, List.isPrefixOf]
  | [c] => simp [dndSep, List.isPrefixOf]
  | c₁ :: c₂ :: t =>
    simp only [dndSep, List.isPrefixOf, Bool.and_eq_true, beq_iff_eq]
    constructor
    · rintro ⟨h1, h2, -⟩
      exact ⟨t, by rw [← h1, ← h2]⟩
    · rintro ⟨t2, ht⟩
      injection ht with h1 ht2
      injection ht2 with h2 _
      exact ⟨h1.symm, h2.symm, trivial⟩

theorem findSep_eq_some : ∀ {l b a : List Char},
    findSep dndSep l = some (b, a) → l = b ++ dndSep ++ a := by
  intro l
  induction l with
  | nil => intro b a h; exact Option.noConfusion h
  | cons c cs ih =>
    intro b a h
    unfold findSep at h
    split at h
    · rename_i hpre
      obtain ⟨t, ht⟩ := dndSep_isPrefixOf_iff.mp hpre
      rw [ht] at h ⊢
      simp only [dndSep, List.length_cons, List.length_nil, List.drop_succ_cons,
        List.drop_zero, Option.some.injEq, Prod.mk.injEq] at h
      obtain ⟨hb, ha⟩ := h
      rw [← hb, ← ha]
      rfl
    · rename_i hpre
      cases hfs : findSep dndSep cs with
      | none => rw [hfs] at h; simp at h
      | some p =>
        obtain ⟨b2, a2⟩ := p
        rw [hfs] at h
        simp at h
        obtain ⟨hb, ha⟩ := h
        rw [← hb, ← ha, ih hfs]
        rfl

theorem findSep_eq_none_of_no_colon : ∀ {l : List Char}, (∀ c ∈ l, c ≠ ':') →
    findSep dndSep l = none := by
  intro l
  induction l with
  | nil => intro _; rfl
  | cons c cs ih =>
    intro h
    have hpre : ¬ dndSep.isPrefixOf (c :: cs) = true := by
      intro hp
      obtain ⟨t, ht⟩ := dndSep_isPrefixOf_iff.mp hp
      injection ht with h1 _
      exact h c (by simp) h1
    unfold findSep
    rw [if_neg hpre, ih (fun x hx => h x (by simp [hx]))]
    rfl

theorem splitOnSepFuel_succ_none (l : List Char) (fuel : Nat)
    (h : findSep dndSep l = none) : splitOnSepFuel (fuel + 1) l = [l] := by
  simp [splitOnSepFuel, h]

theorem splitOnSepFuel_succ_some {b a : List Char} (l : List Char) (fuel : Nat)
    (h : findSep dndSep l = some (b, a)) :
    splitOnSepFuel (fuel + 1) l = b :: splitOnSepFuel fuel a := by
  simp [splitOnSepFuel, h]

theorem splitOnSepFuel_congr : ∀ (k : Nat) (l : List Char), l.length ≤ k →
    ∀ f₁ f₂, l.length < f₁ → l.length < f₂ →
    splitOnSepFuel f₁ l = splitOnSepFuel f₂ l := by
  intro k
  induction k with
  | zero =>
    intro l hk f₁ f₂ h₁ h₂
    have hl : l = [] := List.length_eq_zero.mp (Nat.le_zero.mp hk)
    subst hl
    match f₁, f₂, h₁, h₂ with
    | m₁ + 1, m₂ + 1, _, _ =>
      rw [splitOnSepFuel_succ_none [] m₁ rfl, splitOnSepFuel_succ_none [] m₂ rfl]
  | succ k ih =>
    intro l hk f₁ f₂ h₁ h₂
    match f₁, f₂, h₁, h₂ with
    | m₁ + 1, m₂ + 1, _, _ =>
      cases hfs : findSep dndSep l with
      | none => rw [splitOnSepFuel_succ_none l m₁ hfs, splitOnSepFuel_succ_none l m₂ hfs]
      | some p =>
        obtain ⟨b, a⟩ := p
        have hl := findSep_eq_some hfs
        have hlen : l.length = b.length + 2 + a.length := by
          rw [hl]; simp [dndSep]; omega
        rw [splitOnSepFuel_succ_some l m₁ hfs, splitOnSepFuel_succ_some l m₂ hfs,
          ih a (by omega) m₁ m₂ (by omega) (by omega)]

theorem splitOnSep_of_none (l : List Char) (h : findSep dndSep l = none) :
    splitOnSep l = [l] :=
  splitOnSepFuel_succ_none l l.length h

theorem splitOnSep_of_some {l b a : List Char} (h : findSep dndSep l = some (b, a)) :
    splitOnSep l = b :: splitOnSep a := by
  have hl := findSep_eq_some h
  have hlen : l.length = b.length + 2 + a.length := by
    rw [hl]; simp [dndSep]; omega
  unfold splitOnSep
  rw [splitOnSepFuel_succ_some l l.length h,
    splitOnSepFuel_congr a.length a le_rfl l.length (a.length + 1) (by omega) (by omega)]

theorem splitOnSep_ne_nil (l : List Char) : splitOnSep l ≠ [] := by
  cases hfs : findSep dndSep l with
  | none => rw [splitOnSep_of_none l hfs]; simp
  | some p =>
    obtain ⟨b, a⟩ := p
    rw [splitOnSep_of_some hfs]
    simp

theorem splitOnSep_exists_cons (l : List Char) :
    ∃ h t, splitOnSep l = h :: t := by
  cases heq : splitOnSep l with
  | nil => exact absurd heq (splitOnSep_ne_nil l)
  | cons h t => exact ⟨h, t, rfl⟩

theorem joinSep_splitOnSep_bounded : ∀ (k : Nat) (l : List Char), l.length ≤ k →
    joinSep (splitOnSep l) = l := by
  intro k
  induction k with
  | zero =>
    intro l hk
    have hl : l = [] := List.length_eq_zero.mp (Nat.le_zero.mp hk)
    subst hl
    rw [splitOnSep_of_none [] rfl]
    rfl
  | succ k ih =>
    intro l hk
    cases hfs : findSep dndSep l with
    | none => rw [splitOnSep_of_none l hfs]; rfl
    | some p =>
      obtain ⟨b, a⟩ := p
      have hl := findSep_eq_some hfs
      have hlen : l.length = b.length + 2 + a.length := by
        rw [hl]; simp [dndSep]; omega
      rw [splitOnSep_of_some hfs]
      obtain ⟨h, t, hht⟩ := splitOnSep_exists_cons a
      rw [hht]
      show b ++ dndSep ++ joinSep (h :: t) = l
      rw [← hht, ih a (by omega), hl]

theorem joinSep_split (l : List Char) : joinSep (splitOnSep l) = l :=
  joinSep_splitOnSep_bounded l.length l le_rfl

theorem findSep_boundary : ∀ {x : List Char}, findSep dndSep x = none →
    x.getLast? ≠ some ':' → ∀ r, findSep dndSep (x ++ (dndSep ++ r)) = some (x, r) := by
  intro x
  induction x with
  | nil =>
    intro _ _ r
    show findSep dndSep (':' :: ':' :: r) = some ([], r)
    unfold findSep
    rw [if_pos (dndSep_isPrefixOf_iff.mpr ⟨r, rfl⟩)]
    simp [dndSep]
  | cons c cs ih =>
    intro hx hlast r
    have hx' : findSep dndSep cs = none ∧ ¬ dndSep.isPrefixOf (c :: cs) = true := by
      unfold findSep at hx
      split at hx
      · exact absurd hx (by simp)
      · rename_i hp
        refine ⟨?_, hp⟩
        cases hfs : findSep dndSep cs with
        | none => rfl
        | some p => rw [hfs] at hx; simp at hx
    obtain ⟨hcs, hnp⟩ := hx'
    have hneg : ¬ dndSep.isPrefixOf (c :: (cs ++ (dndSep ++ r))) = true := by
      intro hp
      obtain ⟨t, ht⟩ := dndSep_isPrefixOf_iff.mp hp
      injection ht with h1 h2
      cases cs with
      | nil => exact hlast (by rw [h1]; rfl)
      | cons c₂ cs₂ =>
        rw [List.cons_append] at h2
        injection h2 with h21 _
        exact hnp (dndSep_isPrefixOf_iff.mpr ⟨cs₂, by rw [h1, h21]⟩)
    show findSep dndSep (c :: (cs ++ (dndSep ++ r))) = some (c :: cs, r)
    unfold findSep
    rw [if_neg hneg]
    cases cs with
    | nil =>
      have h0 : findSep dndSep ([] ++ (dndSep ++ r)) = some ([], r) :=
        ih rfl (by simp) r
      rw [h0]
      rfl
    | cons c₂ cs₂ =>
      have hlast2 : (c₂ :: cs₂).getLast? ≠ some ':' := by
        rw [← List.getLast?_cons_cons]
        exact hlast
      have h0 := ih hcs hlast2 r
      rw [h0]
      rfl

theorem splitOnSep_boundary {x : List Char} (hx : findSep dndSep x = none)
    (hlast : x.getLast? ≠ some ':') (r : List Char) :
    splitOnSep (x ++ (dndSep ++ r)) = x :: splitOnSep r :=
  splitOnSep_of_some (findSep_boundary hx hlast r)

/-! ### Roundtrip of the drag identifier codec -/

theorem data_append (s t : String) : (s ++ t).data = s.data ++ t.data := rfl

theorem sep_data : ("::" : String).data = dndSep := rfl

theorem natDigits_sep_free (n : Nat) : findSep dndSep (natDigits n) = none :=
  findSep_eq_none_of_no_colon (fun c hc => by
    obtain ⟨d, hd⟩ := natDigits_mem n c hc
    rw [hd]; exact (digitChar_spec d).2.2.2.2)

theorem natDigits_getLast (n : Nat) :
    ∃ d, (natDigits n).getLast? = some (digitChar d) := by
  rw [natDigits_eq]
  split
  · exact ⟨n, rfl⟩
  · exact ⟨n % 10, List.getLast?_concat _⟩

theorem natDigits_not_colon_last (n : Nat) : (natDigits n).getLast? ≠ some ':' := by
  obtain ⟨d, hd⟩ := natDigits_getLast n
  rw [hd]
  intro h
  injection h with h1
  exact (digitChar_spec d).2.2.2.2 h1

theorem encodeTaskId_split (bi : Nat) (cn tt : String)
    (hfree : findSep dndSep cn.data = none) (hlast : cn.data.getLast? ≠ some ':') :
    splitOnSep (encodeTaskId bi cn tt).data =
      natDigits bi :: cn.data :: splitOnSep tt.data := by
  have hdata : (encodeTaskId bi cn tt).data =
      natDigits bi ++ (dndSep ++ (cn.data ++ (dndSep ++ tt.data))) := by
    show (natToString bi ++ "::" ++ cn ++ "::" ++ tt).data = _
    simp only [data_append, sep_data, List.append_assoc]
    rfl
  rw [hdata, splitOnSep_boundary (natDigits_sep_free bi) (natDigits_not_colon_last bi),
    splitOnSep_boundary hfree hlast]

theorem encodeColumnId_split (bi : Nat) (cn : String)
    (hfree : findSep dndSep cn.data = none) :
    splitOnSep (encodeColumnId bi cn).data = [natDigits bi, cn.data] := by
  have hdata : (encodeColumnId bi cn).data =
      natDigits bi ++ (dndSep ++ cn.data) := by
    show (natToString bi ++ "::" ++ cn).data = _
    simp only [data_append, sep_data, List.append_assoc]
    rfl
  rw [hdata, splitOnSep_boundary (natDigits_sep_free bi) (natDigits_not_colon_last bi),
    splitOnSep_of_none cn.data hfree]

theorem mk_natDigits (n : Nat) : String.mk (natDigits n) = natToString n := rfl

/-- C6 (amended): the codec roundtrips for every board index and every task
title — including titles containing the delimiter — provided the column name
contains no occurrence of the delimiter and does not end with a colon
character (a trailing colon would merge with the delimiter that follows it). -/
theorem dnd_id_roundtrip (boardIndex : Nat) (columnName taskTitle : String)
    (hfree : findSep dndSep columnName.data = none)
    (hcolon : columnName.data.getLast? ≠ some ':') :
    decodeTaskId (encodeTaskId boardIndex columnName taskTitle) =
      some { boardIndex := some (boardIndex : Int), columnName := columnName,
             taskTitle := taskTitle } ∧
    decodeColumnId (encodeColumnId boardIndex columnName) =
      some { boardIndex := some (boardIndex : Int), columnName := columnName } := by
  constructor
  · unfold decodeTaskId
    rw [encodeTaskId_split boardIndex columnName taskTitle hfree hcolon]
    obtain ⟨h, t, hht⟩ := splitOnSep_exists_cons taskTitle.data
    rw [hht]
    show some ({ boardIndex := jsParseInt (String.mk (natDigits boardIndex)),
                 columnName := String.mk columnName.data,
                 taskTitle := String.mk (joinSep (h :: t)) } : DecodedTask) = _
    rw [← hht, mk_natDigits, jsParseInt_natToString, joinSep_split]
  · unfold decodeColumnId
    rw [encodeColumnId_split boardIndex columnName hfree]
    show some ({ boardIndex := jsParseInt (String.mk (natDigits boardIndex)),
                 columnName := String.mk columnName.data } : DecodedColumn) = _
    rw [mk_natDigits, jsParseInt_natToString]

/-- Witness for C6: a concrete roundtrip with a delimiter-containing title. -/
theorem dnd_id_roundtrip_witness :
    decodeTaskId (encodeTaskId 2 "Todo" "a::b") =
      some { boardIndex := some 2, columnName := "Todo", taskTitle := "a::b" } ∧
    decodeColumnId (encodeColumnId 2 "Todo") =
      some { boardIndex := some 2, columnName := "Todo" } :=
  dnd_id_roundtrip 2 "Todo" "a::b" (by decide) (by decide)

/-- Counterexample to C6 as stated: for a column name containing the
delimiter, both decoders cut the column name at its first delimiter
occurrence, so neither roundtrip returns the original pair/triple. -/
theorem dnd_id_roundtrip_cex :
    decodeTaskId (encodeTaskId 0 "a::b" "t") =
      some { boardIndex := some 0, columnName := "a", taskTitle := "b::t" } ∧
    decodeTaskId (encodeTaskId 0 "a::b" "t") ≠
      some { boardIndex := some 0, columnName := "a::b", taskTitle := "t" } ∧
    decodeColumnId (encodeColumnId 0 "a::b") =
      some { boardIndex := some 0, columnName := "a" } ∧
    decodeColumnId (encodeColumnId 0 "a::b") ≠
      some { boardIndex := some 0, columnName := "a::b" } := by decide

example : decodeTaskId (encodeTaskId 3 "Todo" "Fix it") =
    some { boardIndex := some 3, columnName := "Todo", taskTitle := "Fix it" } := by decide

example : decodeTaskId (encodeTaskId 0 "Todo" "a::b") =
    some { boardIndex := some 0, columnName := "Todo", taskTitle := "a::b" } := by decide

example : decodeColumnId (encodeColumnId 12 "Done") =
    some { boardIndex := some 12, columnName := "Done" } := by decide

example : decodeColumnId (encodeColumnId 0 "a::b") =
    some { boardIndex := some 0, columnName := "a" } := by decide

/-! ### The drag-end handler, from src/unnamed/part_003 -/

/-- The boards actions dispatched by the drag coordinator, from the
`BoardsAction` union in src/src/types/types.ts (restricted to the actions
the verified components dispatch). -/
inductive BoardsAction where
  | REORDER_TASK (boardIndex : Nat) (columnName : String) (fromIndex toIndex : Nat)
  | MOVE_TASK (boardIndex : Nat) (fromColumn toColumn taskTitle : String)
  | SET_BOARDS (boards : List Board)
deriving Repr, DecidableEq

/-- From src/unnamed/part_003: the tail of handleDragEnd after the task-target
branch — decode the over identifier as a column, abort on failure, board
mismatch or unchanged column, else dispatch MOVE_TASK. -/
def dragEndColumnPhase (boardIndex : Nat) (activeTask : DecodedTask)
    (overId : String) : Option BoardsAction :=
  match decodeColumnId overId with
  | none => none
  | some columnData =>
    if columnData.boardIndex ≠ some (boardIndex : Int) then none
    else if activeTask.columnName = columnData.columnName then none
    else some (.MOVE_TASK boardIndex activeTask.columnName columnData.columnName
        activeTask.taskTitle)

/-- From src/unnamed/part_003 (BoardView handleDragEnd): decode the active id
as a task and abort on failure or board mismatch; when the over id decodes as
a task of the same board, resolve both columns and both positions by lookup
(aborting when any fails), reorder within one column or fall through to the
column phase for differing columns; otherwise run the column phase. -/
def handleDragEnd (boardIndex : Nat) (board : Board) (activeId overId : String) :
    Option BoardsAction :=
  match decodeTaskId activeId with
  | none => none
  | some activeTask =>
    if activeTask.boardIndex ≠ some (boardIndex : Int) then none
    else
      match decodeTaskId overId with
      | some overTask =>
        if overTask.boardIndex = some (boardIndex : Int) then
          match board.columns.find? (fun c => c.name == activeTask.columnName),
                board.columns.find? (fun c => c.name == overTask.columnName) with
          | some fromCol, some toCol =>
            match fromCol.tasks.findIdx? (fun t => t.title == activeTask.taskTitle),
                  toCol.tasks.findIdx? (fun t => t.title == overTask.taskTitle) with
            | some fromIndex, some toIndex =>
              if activeTask.columnName = overTask.columnName then
                if fromIndex = toIndex then none
                else some (.REORDER_TASK boardIndex activeTask.columnName fromIndex toIndex)
              else dragEndColumnPhase boardIndex activeTask overId
            | _, _ => none
          | _, _ => none
        else dragEndColumnPhase boardIndex activeTask overId
      | none => dragEndColumnPhase boardIndex activeTask overId

/-- A string that decodes as a task also decodes as a column, with the same
board index and column name (both read the first two split parts). -/
theorem decode_consistent (s : String) :
    ∀ {o : DecodedTask}, decodeTaskId s = some o →
    decodeColumnId s = some { boardIndex := o.boardIndex, columnName := o.columnName } := by
  intro o h
  unfold decodeTaskId at h
  unfold decodeColumnId
  cases hsp : splitOnSep s.data with
  | nil => rw [hsp] at h; simp at h
  | cons p0 t0 =>
    cases t0 with
    | nil => rw [hsp] at h; simp at h
    | cons p1 t1 =>
      cases t1 with
      | nil => rw [hsp] at h; simp at h
      | cons p2 rest =>
        rw [hsp] at h
        simp only [Option.some.injEq] at h
        rw [← h]

/-- C7 (amended): routing of a drag-end event. In the current board, with the
active id decoding to a task of this board: dropping on a task of the same
board and same column dispatches REORDER_TASK with both positions resolved by
title lookup (nothing when either is unresolvable or they are equal);
dropping on a task of the same board and a different column dispatches
MOVE_TASK to that task's column, provided both columns and both titles
resolve — when any lookup fails the handler dispatches nothing (this guard is
the amendment); dropping on a column id of the same board dispatches
MOVE_TASK unless the column equals the source; every other case (decode
failure, board index mismatch) dispatches nothing, and at most one action is
dispatched per event. -/
theorem handleDragEnd_routing (bi : Nat) (board : Board) (activeId overId : String) :
    (decodeTaskId activeId = none → handleDragEnd bi board activeId overId = none) ∧
    (∀ a, decodeTaskId activeId = some a → a.boardIndex ≠ some (bi : Int) →
      handleDragEnd bi board activeId overId = none) ∧
    (∀ a o fc fi ti, decodeTaskId activeId = some a → a.boardIndex = some (bi : Int) →
      decodeTaskId overId = some o → o.boardIndex = some (bi : Int) →
      o.columnName = a.columnName →
      board.columns.find? (fun c => c.name == a.columnName) = some fc →
      fc.tasks.findIdx? (fun t => t.title == a.taskTitle) = some fi →
      fc.tasks.findIdx? (fun t => t.title == o.taskTitle) = some ti →
      handleDragEnd bi board activeId overId =
        (if fi = ti then none else some (.REORDER_TASK bi a.columnName fi ti))) ∧
    (∀ a o fc tc fi ti, decodeTaskId activeId = some a → a.boardIndex = some (bi : Int) →
      decodeTaskId overId = some o → o.boardIndex = some (bi : Int) →
      o.columnName ≠ a.columnName →
      board.columns.find? (fun c => c.name == a.columnName) = some fc →
      board.columns.find? (fun c => c.name == o.columnName) = some tc →
      fc.tasks.findIdx? (fun t => t.title == a.taskTitle) = some fi →
      tc.tasks.findIdx? (fun t => t.title == o.taskTitle) = some ti →
      handleDragEnd bi board activeId overId =
        some (.MOVE_TASK bi a.columnName o.columnName a.taskTitle)) ∧
    (∀ a o, decodeTaskId activeId = some a → a.boardIndex = some (bi : Int) →
      decodeTaskId overId = some o → o.boardIndex = some (bi : Int) →
      ¬ (∃ fc tc fi ti,
          board.columns.find? (fun c => c.name == a.columnName) = some fc ∧
          board.columns.find? (fun c => c.name == o.columnName) = some tc ∧
          fc.tasks.findIdx? (fun t => t.title == a.taskTitle) = some fi ∧
          tc.tasks.findIdx? (fun t => t.title == o.taskTitle) = some ti) →
      handleDragEnd bi board activeId overId = none) ∧
    (∀ a cd, decodeTaskId activeId = some a → a.boardIndex = some (bi : Int) →
      decodeTaskId overId = none → decodeColumnId overId = some cd →
      cd.boardIndex ≠ some (bi : Int) →
      handleDragEnd bi board activeId overId = none) ∧
    (∀ a cd, decodeTaskId activeId = some a → a.boardIndex = some (bi : Int) →
      decodeTaskId overId = none → decodeColumnId overId = some cd →
      cd.boardIndex = some (bi : Int) → cd.columnName = a.columnName →
      handleDragEnd bi board activeId overId = none) ∧
    (∀ a cd, decodeTaskId activeId = some a → a.boardIndex = some (bi : Int) →
      decodeTaskId overId = none → decodeColumnId overId = some cd →
      cd.boardIndex = some (bi : Int) → cd.columnName ≠ a.columnName →
      handleDragEnd bi board activeId overId =
        some (.MOVE_TASK bi a.columnName cd.columnName a.taskTitle)) ∧
    (∀ a, decodeTaskId activeId = some a → a.boardIndex = some (bi : Int) →
      decodeTaskId overId = none → decodeColumnId overId = none →
      handleDragEnd bi board activeId overId = none) ∧
    (∀ a o, decodeTaskId activeId = some a → a.boardIndex = some (bi : Int) →
      decodeTaskId overId = some o → o.boardIndex ≠ some (bi : Int) →
      handleDragEnd bi board activeId overId = none) := by
  refine ⟨?_, ?_, ?_, ?_, ?_, ?_, ?_, ?_, ?_, ?_⟩
  · intro h
    unfold handleDragEnd
    simp only [h]
  · intro a hA hAbi
    unfold handleDragEnd
    simp only [hA]
    rw [if_pos hAbi]
  · intro a o fc fi ti hA hAbi hO hObi hcol hfc hfi hti
    unfold handleDragEnd
    simp only [hA]
    rw [if_neg (fun hc => hc hAbi)]
    simp only [hO]
    rw [if_pos hObi, hcol]
    simp only [hfc, hfi, hti]
    simp
  · intro a o fc tc fi ti hA hAbi hO hObi hne hfc htc hfi hti
    unfold handleDragEnd
    simp only [hA]
    rw [if_neg (fun hc => hc hAbi)]
    simp only [hO]
    rw [if_pos hObi]
    simp only [hfc, htc, hfi, hti]
    rw [if_neg (fun h => hne h.symm)]
    unfold dragEndColumnPhase
    simp only [decode_consistent overId hO]
    rw [if_neg (fun hc => hc hObi), if_neg (fun h => hne h.symm)]
  · intro a o hA hAbi hO hObi hn
    unfold handleDragEnd
    simp only [hA]
    rw [if_neg (fun hc => hc hAbi)]
    simp only [hO]
    rw [if_pos hObi]
    cases hfc : board.columns.find? (fun c => c.name == a.columnName) with
    | none =>
      cases htc : board.columns.find? (fun c => c.name == o.columnName) with
      | none => simp only [hfc, htc]
      | some tc => simp only [hfc, htc]
    | some fc =>
      cases htc : board.columns.find? (fun c => c.name == o.columnName) with
      | none => simp only [hfc, htc]
      | some tc =>
        simp only [hfc, htc]
        cases hfi : fc.tasks.findIdx? (fun t => t.title == a.taskTitle) with
        | none =>
          cases hti : tc.tasks.findIdx? (fun t => t.title == o.taskTitle) with
          | none => simp only [hfi, hti]
          | some ti => simp only [hfi, hti]
        | some fi =>
          cases hti : tc.tasks.findIdx? (fun t => t.title == o.taskTitle) with
          | none => simp only [hfi, hti]
          | some ti => exact absurd ⟨fc, tc, fi, ti, hfc, htc, hfi, hti⟩ hn
  · intro a cd hA hAbi hO hCd hcdbi
    unfold handleDragEnd
    simp only [hA]
    rw [if_neg (fun hc => hc hAbi)]
    simp only [hO]
    unfold dragEndColumnPhase
    simp only [hCd]
    rw [if_pos hcdbi]
  · intro a cd hA hAbi hO hCd hcdbi hcol
    unfold handleDragEnd
    simp only [hA]
    rw [if_neg (fun hc => hc hAbi)]
    simp only [hO]
    unfold dragEndColumnPhase
    simp only [hCd]
    rw [if_neg (fun hc => hc hcdbi), if_pos hcol.symm]
  · intro a cd hA hAbi hO hCd hcdbi hcol
    unfold handleDragEnd
    simp only [hA]
    rw [if_neg (fun hc => hc hAbi)]
    simp only [hO]
    unfold dragEndColumnPhase
    simp only [hCd]
    rw [if_neg (fun hc => hc hcdbi), if_neg (fun h => hcol h.symm)]
  · intro a hA hAbi hO hCd
    unfold handleDragEnd
    simp only [hA]
    rw [if_neg (fun hc => hc hAbi)]
    simp only [hO]
    unfold dragEndColumnPhase
    simp only [hCd]
  · intro a o hA hAbi hO hObi
    unfold handleDragEnd
    simp only [hA]
    rw [if_neg (fun hc => hc hAbi)]
    simp only [hO]
    rw [if_neg hObi]
    unfold dragEndColumnPhase
    simp only [decode_consistent overId hO]
    rw [if_pos hObi]

def wColA : Column :=
  { name := "A",
    tasks := [{ id := "t1", title := "x", status := some "A" },
              { id := "t2", title := "y", status := some "A" }] }

def wBoard : Board := { name := "Web", columns := [wColA] }

/-- Witness for C7: on a concrete board, dropping task x on task y of the
same column dispatches a reorder from position 0 to position 1. -/
theorem handleDragEnd_routing_witness :
    handleDragEnd 0 wBoard "0::A::x" "0::A::y" = some (.REORDER_TASK 0 "A" 0 1) := by
  have h := (handleDragEnd_routing 0 wBoard "0::A::x" "0::A::y").2.2.1
    { boardIndex := some 0, columnName := "A", taskTitle := "x" }
    { boardIndex := some 0, columnName := "A", taskTitle := "y" }
    wColA 0 1 (by decide) (by decide) (by decide) (by decide) (by decide)
    (by decide) (by decide) (by decide)
  rw [h]
  decide

def cexBoard : Board :=
  { name := "Web",
    columns := [{ name := "A", tasks := [{ id := "t1", title := "x" }] },
                { name := "B", tasks := [] }] }

/-- Counterexample to C7 as stated: the over id decodes as a task of the same
board whose column B differs from the source column A, so the claim demands a
MOVE_TASK dispatch; but the over task's title does not resolve in column B
and the handler dispatches nothing. -/
theorem handleDragEnd_cross_unresolved :
    handleDragEnd 0 cexBoard "0::A::x" "0::B::y" = none ∧
    decodeTaskId "0::A::x" =
      some { boardIndex := some 0, columnName := "A", taskTitle := "x" } ∧
    decodeTaskId "0::B::y" =
      some { boardIndex := some 0, columnName := "B", taskTitle := "y" } ∧
    ("B" : String) ≠ "A" := by decide

/-- C10: the decoders are total; decodeTaskId is null exactly when the id has
fewer than three split parts, decodeColumnId exactly when it has fewer than
two; a non-numeral first segment still yields a decoded object whose board
index is NaN (`none`), which the drag-end handler then rejects through its
board-index equality check. -/
theorem decode_totality (s : String) (bi : Nat) (board : Board) (overId : String) :
    (decodeTaskId s = none ↔ (splitOnSep s.data).length < 3) ∧
    (decodeColumnId s = none ↔ (splitOnSep s.data).length < 2) ∧
    (∀ p0 p1 p2 rest, splitOnSep s.data = p0 :: p1 :: p2 :: rest →
      jsParseInt (String.mk p0) = none →
      decodeTaskId s = some { boardIndex := none, columnName := String.mk p1,
                              taskTitle := String.mk (joinSep (p2 :: rest)) }) ∧
    (∀ d, decodeTaskId s = some d → d.boardIndex = none →
      handleDragEnd bi board s overId = none) := by
  refine ⟨?_, ?_, ?_, ?_⟩
  · unfold decodeTaskId
    cases hsp : splitOnSep s.data with
    | nil => simp
    | cons p0 t0 =>
      cases t0 with
      | nil => simp
      | cons p1 t1 =>
        cases t1 with
        | nil => simp
        | cons p2 rest => simp
  · unfold decodeColumnId
    cases hsp : splitOnSep s.data with
    | nil => simp
    | cons p0 t0 =>
      cases t0 with
      | nil => simp
      | cons p1 t1 => simp
  · intro p0 p1 p2 rest hsp hnan
    unfold decodeTaskId
    rw [hsp]
    simp only [hnan]
  · intro d hd hnan
    unfold handleDragEnd
    simp only [hd]
    rw [if_pos (by rw [hnan]; exact fun h => Option.noConfusion h)]

/-- Witness for C10: a concrete id with a non-numeral board segment decodes
to a NaN board index, and the handler dispatches nothing for it. -/
theorem decode_totality_witness :
    handleDragEnd 0 { name := "Web", columns := [] } "q::C::t" "0::C" = none := by
  have h := decode_totality "q::C::t" 0 { name := "Web", columns := [] } "0::C"
  exact h.2.2.2 { boardIndex := none, columnName := "C", taskTitle := "t" }
    (by decide) (by decide)

/-! ### Generic list facts used by the reducer model -/

theorem find?_of_findIdx? {α : Type} {p : α → Bool} :
    ∀ {l : List α} {i : Nat} {x : α},
    l.findIdx? p = some i → l[i]? = some x → l.find? p = some x := by
  intro l
  induction l with
  | nil => intro i x h _; simp at h
  | cons a as ih =>
    intro i x h hx
    rw [List.findIdx?_cons] at h
    by_cases hpa : p a
    · rw [if_pos hpa] at h
      injection h with h0
      rw [← h0] at hx
      simp only [List.getElem?_cons_zero, Option.some.injEq] at hx
      rw [List.find?_cons_of_pos as hpa, hx]
    · rw [if_neg hpa, List.findIdx?_start_succ] at h
      cases hfs : as.findIdx? p with
      | none => rw [hfs] at h; simp at h
      | some i2 =>
        rw [hfs] at h
        simp at h
        rw [← h] at hx
        rw [List.find?_cons_of_neg as hpa]
        exact ih hfs (by simpa using hx)

theorem findIdx?_pos_of_getElem {α : Type} {p : α → Bool} {l : List α} {i : Nat} {x : α}
    (h : l.findIdx? p = some i) (hx : l[i]? = some x) : p x = true := by
  obtain ⟨hlt, hp, -⟩ := List.findIdx?_eq_some_iff_getElem.mp h
  rw [List.getElem?_eq_getElem hlt] at hx
  injection hx with hx
  rw [← hx]
  exact hp

theorem findIdx?_lt_length {α : Type} {p : α → Bool} {l : List α} {i : Nat}
    (h : l.findIdx? p = some i) : i < l.length :=
  (List.findIdx?_eq_some_iff_getElem.mp h).1

theorem findIdx?_set_of_false {α : Type} {p : α → Bool} {l : List α} {i j : Nat} {x y : α}
    (h : l.findIdx? p = some j) (hi : l[i]? = some y) (hpy : p y = false)
    (hpx : p x = false) : (l.set i x).findIdx? p = some j := by
  obtain ⟨hlt, hp, hprior⟩ := List.findIdx?_eq_some_iff_getElem.mp h
  have hij : i ≠ j := by
    intro he
    subst he
    rw [List.getElem?_eq_getElem hlt] at hi
    injection hi with hi
    have hpy2 : p y = true := hi ▸ hp
    rw [hpy] at hpy2
    exact Bool.noConfusion hpy2
  have hlen : j < (l.set i x).length := by
    rw [List.length_set]; exact hlt
  refine List.findIdx?_eq_some_iff_getElem.mpr ⟨hlen, ?_, ?_⟩
  · rw [List.getElem_set_ne hij hlen]
    exact hp
  · intro k hk
    by_cases hki : k = i
    · subst hki
      rw [List.getElem_set_self (by rw [List.length_set]; omega), hpx]
      exact Bool.noConfusion
    · rw [List.getElem_set_ne (by omega : i ≠ k) (by rw [List.length_set]; omega)]
      exact hprior k hk

theorem cons_eraseIdx_perm {α : Type} : ∀ {l : List α} {i : Nat} {x : α},
    l[i]? = some x → (x :: l.eraseIdx i).Perm l := by
  intro l
  induction l with
  | nil => intro i x h; simp at h
  | cons a as ih =>
    intro i x h
    cases i with
    | zero =>
      simp only [List.getElem?_cons_zero, Option.some.injEq] at h
      rw [← h, List.eraseIdx_cons_zero]
    | succ i =>
      simp only [List.getElem?_cons_succ] at h
      rw [List.eraseIdx_cons_succ]
      exact ((List.Perm.swap a x _).trans ((ih h).cons a)).symm.symm

/-! ### The reducer actions MOVE_TASK and REORDER_TASK, modelled from the spec

The boardsReducer implementation (imported as `@/utils/boardsReducer` by
src/src/store/useStore.ts) is not among the sources; only its test suite
(src/unnamed/part_018) is. The two actions the claims depend on are modelled
here from the specification text and checked against that test suite below. -/

/-- Modelled from the spec: remove the first task whose title matches
(first-match semantics for title lookups, spec section 9). -/
def removeFirstByTitle (title : String) : List Task → List Task
  | [] => []
  | t :: ts => if t.title == title then ts else t :: removeFirstByTitle title ts

/-- Modelled from the spec: rewrite the tasks of the first column with the
given name, leaving every other column untouched (lookup by exact name). -/
def mapFirstColumn (name : String) (f : List Task → List Task) :
    List Column → List Column
  | [] => []
  | c :: cs =>
    if c.name == name then { c with tasks := f c.tasks } :: cs
    else c :: mapFirstColumn name f cs

/-- Modelled from the spec: `MOVE_TASK(boardIndex, fromColumn, toColumn,
taskTitle)`: remove the task matching the title from fromColumn, append it to
the end of toColumn's task list, set its status field to toColumn's name;
no-op if fromColumn equals toColumn or the task is not found. A missing
board index or destination column is also a no-op, keeping the reducer total
and the spec's board-level count invariant intact. -/
def moveTask (state : BoardsState) (boardIndex : Nat)
    (fromColumn toColumn taskTitle : String) : BoardsState :=
  match state.boards[boardIndex]? with
  | none => state
  | some board =>
    if fromColumn = toColumn then state
    else
      match board.columns.find? (fun c => c.name == fromColumn) with
      | none => state
      | some fc =>
        match fc.tasks.find? (fun t => t.title == taskTitle) with
        | none => state
        | some t =>
          match board.columns.find? (fun c => c.name == toColumn) with
          | none => state
          | some _ =>
            { boards := state.boards.set boardIndex
                { board with columns :=
                    (mapFirstColumn toColumn
                      (fun ts => ts ++ [{ t with status := some toColumn }])
                      (mapFirstColumn fromColumn (removeFirstByTitle taskTitle)
                        board.columns)) } }

/-- Modelled from the spec: `REORDER_TASK(boardIndex, columnName, fromIndex,
toIndex)`: move a task within one column with array splice-move semantics —
remove at fromIndex, insert at toIndex in the resulting shorter array; no-op
if fromIndex equals toIndex (an out-of-range position is also a no-op,
keeping the model total). -/
def reorderTask (state : BoardsState) (boardIndex : Nat) (columnName : String)
    (fromIndex toIndex : Nat) : BoardsState :=
  match state.boards[boardIndex]? with
  | none => state
  | some board =>
    if fromIndex = toIndex then state
    else
      { boards := state.boards.set boardIndex
          { board with columns :=
              (mapFirstColumn columnName (fun ts =>
                match ts[fromIndex]? with
                | none => ts
                | some t => (ts.eraseIdx fromIndex).insertIdx toIndex t)
                board.columns) } }

/-- Total number of tasks on a board, summed over its columns. -/
def boardTaskCount (b : Board) : Nat :=
  (b.columns.map (fun c => c.tasks.length)).sum

/-- The MOVE_TASK scenario of the reducer test suite (src/unnamed/part_018). -/
example :
    moveTask
      ⟨[⟨"Board", [⟨"Todo", [⟨"task-1", "Move Me", some "", some "Todo", none⟩]⟩,
                   ⟨"Done", []⟩]⟩]⟩
      0 "Todo" "Done" "Move Me" =
    ⟨[⟨"Board", [⟨"Todo", []⟩,
                 ⟨"Done", [⟨"task-1", "Move Me", some "", some "Done", none⟩]⟩]⟩]⟩ := by
  decide

/-- The REORDER_TASK scenario of the reducer test suite (src/unnamed/part_018). -/
example :
    reorderTask
      ⟨[⟨"Board", [⟨"Todo", [⟨"task-1", "Task 1", some "", some "Todo", none⟩,
                             ⟨"task-2", "Task 2", some "", some "Todo", none⟩]⟩]⟩]⟩
      0 "Todo" 0 1 =
    ⟨[⟨"Board", [⟨"Todo", [⟨"task-2", "Task 2", some "", some "Todo", none⟩,
                           ⟨"task-1", "Task 1", some "", some "Todo", none⟩]⟩]⟩]⟩ := by
  decide

theorem removeFirstByTitle_eq_eraseIdx {title : String} :
    ∀ {ts : List Task} {i : Nat},
    ts.findIdx? (fun t => t.title == title) = some i →
    removeFirstByTitle title ts = ts.eraseIdx i := by
  intro ts
  induction ts with
  | nil => intro i h; simp at h
  | cons t rest ih =>
    intro i h
    rw [List.findIdx?_cons] at h
    by_cases hp : (t.title == title) = true
    · rw [if_pos hp] at h
      injection h with h0
      rw [← h0]
      unfold removeFirstByTitle
      rw [if_pos hp]
      rfl
    · rw [if_neg hp, List.findIdx?_start_succ] at h
      cases hfs : rest.findIdx? (fun t => t.title == title) with
      | none => rw [hfs] at h; simp at h
      | some i2 =>
        rw [hfs] at h
        simp at h
        rw [← h]
        unfold removeFirstByTitle
        rw [if_neg hp, List.eraseIdx_cons_succ, ih hfs]

theorem mapFirstColumn_of_findIdx {name : String} {f : List Task → List Task} :
    ∀ {cols : List Column} {i : Nat} {c : Column},
    cols.findIdx? (fun c => c.name == name) = some i → cols[i]? = some c →
    mapFirstColumn name f cols = cols.set i { c with tasks := f c.tasks } := by
  intro cols
  induction cols with
  | nil => intro i c h _; simp at h
  | cons c0 rest ih =>
    intro i c h hc
    rw [List.findIdx?_cons] at h
    by_cases hp : (c0.name == name) = true
    · rw [if_pos hp] at h
      injection h with h0
      rw [← h0] at hc
      simp only [List.getElem?_cons_zero, Option.some.injEq] at hc
      unfold mapFirstColumn
      rw [if_pos hp, ← h0, hc]
      rfl
    · rw [if_neg hp, List.findIdx?_start_succ] at h
      cases hfs : rest.findIdx? (fun c => c.name == name) with
      | none => rw [hfs] at h; simp at h
      | some i2 =>
        rw [hfs] at h
        simp at h
        rw [← h] at hc ⊢
        simp only [List.getElem?_cons_succ] at hc
        unfold mapFirstColumn
        rw [if_neg hp, ih hfs hc]
        rfl

theorem sum_lengths_set {cols : List Column} :
    ∀ {i : Nat} {c0 c1 : Column}, cols[i]? = some c0 →
    ((cols.set i c1).map (fun c => c.tasks.length)).sum + c0.tasks.length =
      (cols.map (fun c => c.tasks.length)).sum + c1.tasks.length := by
  induction cols with
  | nil => intro i c0 c1 h; simp at h
  | cons a rest ih =>
    intro i c0 c1 h
    cases i with
    | zero =>
      simp only [List.getElem?_cons_zero, Option.some.injEq] at h
      rw [← h]
      simp only [List.set_cons_zero, List.map_cons, List.sum_cons]
      omega
    | succ i =>
      simp only [List.getElem?_cons_succ] at h
      simp only [List.set_cons_succ, List.map_cons, List.sum_cons]
      have h2 := @ih i c0 c1 h
      omega

theorem getElem?_lt_length {α : Type} {l : List α} {i : Nat} {x : α}
    (h : l[i]? = some x) : i < l.length :=
  (List.getElem?_eq_some_iff.mp h).1

/-- C2: reducing with REORDER_TASK on a valid pair of distinct positions
rewrites the named column's task list to the splice-move result — remove at
fromIndex, insert at toIndex in the shorter array — which is a permutation of
the original list; every other column and board is untouched, and equal
positions are a no-op returning the state unchanged. -/
theorem reorderTask_spec (state : BoardsState) (bi : Nat) (columnName : String)
    (fromIndex toIndex : Nat) :
    (∀ board ci col tsk,
      state.boards[bi]? = some board →
      board.columns.findIdx? (fun c => c.name == columnName) = some ci →
      board.columns[ci]? = some col →
      fromIndex ≠ toIndex →
      col.tasks[fromIndex]? = some tsk →
      toIndex < col.tasks.length →
      ∃ newBoard,
        reorderTask state bi columnName fromIndex toIndex =
          { boards := state.boards.set bi newBoard } ∧
        newBoard.name = board.name ∧
        newBoard.columns[ci]? =
          some { col with tasks := (col.tasks.eraseIdx fromIndex).insertIdx toIndex tsk } ∧
        ((col.tasks.eraseIdx fromIndex).insertIdx toIndex tsk).Perm col.tasks ∧
        (∀ k, k ≠ ci → newBoard.columns[k]? = board.columns[k]?) ∧
        (∀ j, j ≠ bi →
          (reorderTask state bi columnName fromIndex toIndex).boards[j]? =
            state.boards[j]?)) ∧
    (fromIndex = toIndex → reorderTask state bi columnName fromIndex toIndex = state) := by
  constructor
  · intro board ci col tsk hb hci hcc hne hft htlt
    have hflt : fromIndex < col.tasks.length := getElem?_lt_length hft
    have hcilt : ci < board.columns.length := findIdx?_lt_length hci
    have hmap := mapFirstColumn_of_findIdx
      (f := fun ts =>
        match ts[fromIndex]? with
        | none => ts
        | some t => (ts.eraseIdx fromIndex).insertIdx toIndex t) hci hcc
    simp only [hft] at hmap
    refine ⟨{ board with columns :=
        (board.columns.set ci
          { col with tasks := (col.tasks.eraseIdx fromIndex).insertIdx toIndex tsk }) },
      ?_, rfl, ?_, ?_, ?_, ?_⟩
    · unfold reorderTask
      simp only [hb]
      rw [if_neg hne, hmap]
    · rw [List.getElem?_set_self hcilt]
    · refine ((List.perm_insertIdx tsk _ ?_).trans (cons_eraseIdx_perm hft))
      rw [List.length_eraseIdx_of_lt hflt]
      omega
    · intro k hk
      exact List.getElem?_set_ne (fun he => hk he.symm)
    · intro j hj
      unfold reorderTask
      simp only [hb]
      rw [if_neg hne]
      exact List.getElem?_set_ne (fun he => hj he.symm)
  · intro he
    unfold reorderTask
    cases hb : state.boards[bi]? with
    | none => rfl
    | some board =>
      simp only [hb]
      rw [if_pos he]

def wTask1 : Task := ⟨"task-1", "Task 1", some "", some "Todo", none⟩

def wTask2 : Task := ⟨"task-2", "Task 2", some "", some "Todo", none⟩

def wState2 : BoardsState := ⟨[⟨"Board", [⟨"Todo", [wTask1, wTask2]⟩]⟩]⟩

/-- Witness for C2: the concrete reorder of the test suite, produced through
the general theorem, swaps the two tasks and permutes the column. -/
theorem reorderTask_spec_witness :
    ∃ newBoard,
      reorderTask wState2 0 "Todo" 0 1 = { boards := wState2.boards.set 0 newBoard } ∧
      newBoard.name = "Board" ∧
      newBoard.columns[0]? = some ⟨"Todo", [wTask2, wTask1]⟩ ∧
      ([wTask2, wTask1] : List Task).Perm [wTask1, wTask2] := by
  obtain ⟨nb, h1, h2, h3, h4, -, -⟩ :=
    (reorderTask_spec wState2 0 "Todo" 0 1).1 ⟨"Board", [⟨"Todo", [wTask1, wTask2]⟩]⟩
      0 ⟨"Todo", [wTask1, wTask2]⟩ wTask1
      (by decide) (by decide) (by decide) (by decide) (by decide) (by decide)
  exact ⟨nb, h1, h2, by simpa using h3, by simpa using h4⟩

/-- C1: reducing with MOVE_TASK when the named task exists in fromColumn and
fromColumn differs from toColumn removes the first task whose title matches
from fromColumn, appends it to the end of toColumn's tasks with its status
set to toColumn's name, leaves every other column and board untouched and
preserves the board's total task count; equal columns or a missing task (or
missing column) return the state unchanged. -/
theorem moveTask_spec (state : BoardsState) (bi : Nat)
    (fromColumn toColumn taskTitle : String) :
    (∀ board ci fcol cj tcol ti tsk,
      state.boards[bi]? = some board →
      fromColumn ≠ toColumn →
      board.columns.findIdx? (fun c => c.name == fromColumn) = some ci →
      board.columns[ci]? = some fcol →
      board.columns.findIdx? (fun c => c.name == toColumn) = some cj →
      board.columns[cj]? = some tcol →
      fcol.tasks.findIdx? (fun t => t.title == taskTitle) = some ti →
      fcol.tasks[ti]? = some tsk →
      ∃ newBoard,
        moveTask state bi fromColumn toColumn taskTitle =
          { boards := state.boards.set bi newBoard } ∧
        newBoard.name = board.name ∧
        newBoard.columns[ci]? = some { fcol with tasks := fcol.tasks.eraseIdx ti } ∧
        newBoard.columns[cj]? =
          some { tcol with tasks := tcol.tasks ++ [{ tsk with status := some toColumn }] } ∧
        (∀ k, k ≠ ci → k ≠ cj → newBoard.columns[k]? = board.columns[k]?) ∧
        boardTaskCount newBoard = boardTaskCount board ∧
        (∀ j, j ≠ bi →
          (moveTask state bi fromColumn toColumn taskTitle).boards[j]? =
            state.boards[j]?)) ∧
    (fromColumn = toColumn → moveTask state bi fromColumn toColumn taskTitle = state) ∧
    (∀ board fcol, state.boards[bi]? = some board →
      board.columns.find? (fun c => c.name == fromColumn) = some fcol →
      fcol.tasks.find? (fun t => t.title == taskTitle) = none →
      moveTask state bi fromColumn toColumn taskTitle = state) ∧
    (∀ board, state.boards[bi]? = some board →
      board.columns.find? (fun c => c.name == fromColumn) = none →
      moveTask state bi fromColumn toColumn taskTitle = state) := by
  refine ⟨?_, ?_, ?_, ?_⟩
  · intro board ci fcol cj tcol ti tsk hb hne hci hfc hcj htc hti htt
    have hfname2 : fcol.name = fromColumn := by
      simpa using @findIdx?_pos_of_getElem Column (fun c => c.name == fromColumn)
        board.columns ci fcol hci hfc
    have htname2 : tcol.name = toColumn := by
      simpa using @findIdx?_pos_of_getElem Column (fun c => c.name == toColumn)
        board.columns cj tcol hcj htc
    have hcicj : ci ≠ cj := by
      intro he
      subst he
      rw [hfc] at htc
      injection htc with htc2
      apply hne
      rw [← hfname2, htc2, htname2]
    have hfind1 := find?_of_findIdx? hci hfc
    have hfindT := find?_of_findIdx? hti htt
    have hfind2 := find?_of_findIdx? hcj htc
    have hcilt : ci < board.columns.length := findIdx?_lt_length hci
    have hcjlt : cj < board.columns.length := findIdx?_lt_length hcj
    have htilt : ti < fcol.tasks.length := getElem?_lt_length htt
    have hrm : removeFirstByTitle taskTitle fcol.tasks = fcol.tasks.eraseIdx ti :=
      removeFirstByTitle_eq_eraseIdx hti
    have hmap1 := mapFirstColumn_of_findIdx (f := removeFirstByTitle taskTitle) hci hfc
    rw [hrm] at hmap1
    have hpfcol : (fcol.name == toColumn) = false := by
      rw [hfname2]
      exact beq_eq_false_iff_ne.mpr hne
    have hpc1 : (({ fcol with tasks := fcol.tasks.eraseIdx ti } : Column).name ==
        toColumn) = false := hpfcol
    have hcj2 : ((board.columns.set ci
        { fcol with tasks := fcol.tasks.eraseIdx ti }).findIdx?
          (fun c => c.name == toColumn)) = some cj :=
      findIdx?_set_of_false hcj hfc hpfcol hpc1
    have htc2 : (board.columns.set ci
        { fcol with tasks := fcol.tasks.eraseIdx ti })[cj]? = some tcol := by
      rw [List.getElem?_set_ne hcicj]
      exact htc
    have hmap2 := mapFirstColumn_of_findIdx
      (f := fun ts => ts ++ [{ tsk with status := some toColumn }]) hcj2 htc2
    refine ⟨{ board with columns :=
        ((board.columns.set ci { fcol with tasks := fcol.tasks.eraseIdx ti }).set cj
          { tcol with tasks := tcol.tasks ++ [{ tsk with status := some toColumn }] }) },
      ?_, rfl, ?_, ?_, ?_, ?_, ?_⟩
    · unfold moveTask
      simp only [hb]
      rw [if_neg hne]
      simp only [hfind1, hfindT, hfind2]
      rw [hmap1, hmap2]
    · rw [List.getElem?_set_ne (fun he => hcicj he.symm), List.getElem?_set_self hcilt]
    · rw [List.getElem?_set_self (by rw [List.length_set]; exact hcjlt)]
    · intro k hki hkj
      rw [List.getElem?_set_ne (fun he => hkj he.symm),
        List.getElem?_set_ne (fun he => hki he.symm)]
    · have hA1 := @sum_lengths_set
        (board.columns.set ci { fcol with tasks := fcol.tasks.eraseIdx ti }) cj tcol
        { tcol with tasks := tcol.tasks ++ [{ tsk with status := some toColumn }] } htc2
      have hA2 := @sum_lengths_set board.columns ci fcol
        { fcol with tasks := fcol.tasks.eraseIdx ti } hfc
      unfold boardTaskCount
      simp only [List.length_append, List.length_cons, List.length_nil,
        List.length_eraseIdx_of_lt htilt] at hA1 hA2 ⊢
      omega
    · intro j hj
      unfold moveTask
      simp only [hb]
      rw [if_neg hne]
      simp only [hfind1, hfindT, hfind2]
      exact List.getElem?_set_ne (fun he => hj he.symm)
  · intro he
    unfold moveTask
    cases hb : state.boards[bi]? with
    | none => rfl
    | some board =>
      simp only [hb]
      rw [if_pos he]
  · intro board fcol hb hfind hnone
    unfold moveTask
    simp only [hb]
    by_cases he : fromColumn = toColumn
    · rw [if_pos he]
    · rw [if_neg he]
      simp only [hfind, hnone]
  · intro board hb hfind
    unfold moveTask
    simp only [hb]
    by_cases he : fromColumn = toColumn
    · rw [if_pos he]
    · rw [if_neg he]
      simp only [hfind]

def wTaskM : Task := ⟨"task-1", "Move Me", some "", some "Todo", none⟩

def wStateM : BoardsState :=
  ⟨[⟨"Board", [⟨"Todo", [wTaskM]⟩, ⟨"Done", []⟩]⟩]⟩

/-- Witness for C1: the concrete move of the test suite, produced through the
general theorem, empties Todo, appends to Done with status Done, and keeps
the board's task count at one. -/
theorem moveTask_spec_witness :
    ∃ newBoard,
      moveTask wStateM 0 "Todo" "Done" "Move Me" =
        { boards := wStateM.boards.set 0 newBoard } ∧
      newBoard.columns[0]? = some ⟨"Todo", []⟩ ∧
      newBoard.columns[1]? =
        some ⟨"Done", [⟨"task-1", "Move Me", some "", some "Done", none⟩]⟩ ∧
      boardTaskCount newBoard = 1 := by
  obtain ⟨nb, h1, h2, h3, h4, h5, h6, h7⟩ :=
    (moveTask_spec wStateM 0 "Todo" "Done" "Move Me").1
      ⟨"Board", [⟨"Todo", [wTaskM]⟩, ⟨"Done", []⟩]⟩ 0 ⟨"Todo", [wTaskM]⟩ 1 ⟨"Done", []⟩
      0 wTaskM (by decide) (by decide) (by decide) (by decide) (by decide) (by decide)
      (by decide) (by decide)
  refine ⟨nb, h1, h3, h4, ?_⟩
  rw [h6]
  decide

/-! ### The id-compatibility transform, from src/unnamed/part_017 -/

/-- Raw task from the remote source (RawTask in src/src/types/types.ts):
the id may be absent. -/
structure RawTask where
  id : Option String := none
  title : String
  description : Option String := none
  status : Option String := none
  subtasks : Option (List Subtask) := none
deriving Repr, DecidableEq

/-- Raw column shape used by ensureTaskIds (src/unnamed/part_017). -/
structure RawColumn where
  name : String
  tasks : List RawTask
deriving Repr, DecidableEq

/-- Raw board shape used by ensureTaskIds (src/unnamed/part_017). -/
structure RawBoard where
  name : String
  columns : List RawColumn
deriving Repr, DecidableEq

/-- From src/src/types/types.ts: generateTaskId builds
`task-Date.now()-randomSuffix`; the clock value and the random suffix are
inputs of the model. -/
def generateTaskId (now : Nat) (rand : String) : String :=
  "task-" ++ natToString now ++ "-" ++ rand

/-- JS falsiness of the optional id field: absent or the empty string. -/
def idFalsy : Option String → Bool
  | none => true
  | some s => s.data.isEmpty

/-- From src/unnamed/part_017: one generator call per task lacking an id
(`task.id || generateTaskId()`); the counter indexes successive calls into
the entropy stream `e`. -/
def ensureTasks (e : Nat → Nat × String) : Nat → List RawTask → Nat × List Task
  | k, [] => (k, [])
  | k, t :: ts =>
    if idFalsy t.id then
      ((ensureTasks e (k + 1) ts).1,
       { id := generateTaskId (e k).1 (e k).2, title := t.title,
         description := t.description, status := t.status,
         subtasks := t.subtasks } :: (ensureTasks e (k + 1) ts).2)
    else
      ((ensureTasks e k ts).1,
       { id := t.id.getD "", title := t.title, description := t.description,
         status := t.status, subtasks := t.subtasks } :: (ensureTasks e k ts).2)

/-- From src/unnamed/part_017: the column-level map of ensureTaskIds. -/
def ensureColumns (e : Nat → Nat × String) : Nat → List RawColumn → Nat × List Column
  | k, [] => (k, [])
  | k, c :: cs =>
    ((ensureColumns e (ensureTasks e k c.tasks).1 cs).1,
     { name := c.name, tasks := (ensureTasks e k c.tasks).2 } ::
       (ensureColumns e (ensureTasks e k c.tasks).1 cs).2)

/-- From src/unnamed/part_017: the board-level map of ensureTaskIds. -/
def ensureBoards (e : Nat → Nat × String) : Nat → List RawBoard → Nat × List Board
  | k, [] => (k, [])
  | k, b :: bs =>
    ((ensureBoards e (ensureColumns e k b.columns).1 bs).1,
     { name := b.name, columns := (ensureColumns e k b.columns).2 } ::
       (ensureBoards e (ensureColumns e k b.columns).1 bs).2)

/-- From src/unnamed/part_017: ensureTaskIds assigns a generated id to every
task lacking one, preserving everything else. -/
def ensureTaskIds (e : Nat → Nat × String) (boards : List RawBoard) : List Board :=
  (ensureBoards e 0 boards).2

/-- A produced task viewed again as raw input (a present id). -/
def taskToRaw (t : Task) : RawTask :=
  { id := some t.id, title := t.title, description := t.description,
    status := t.status, subtasks := t.subtasks }

/-- A produced column viewed again as raw input. -/
def columnToRaw (c : Column) : RawColumn :=
  { name := c.name, tasks := c.tasks.map taskToRaw }

/-- A produced board viewed again as raw input. -/
def boardToRaw (b : Board) : RawBoard :=
  { name := b.name, columns := b.columns.map columnToRaw }

/-- Forget the id of a produced task (for field-preservation statements). -/
def stripTask (t : Task) : RawTask :=
  { id := none, title := t.title, description := t.description,
    status := t.status, subtasks := t.subtasks }

/-- Forget the id of a raw task. -/
def stripRawTask (t : RawTask) : RawTask := { t with id := none }

/-- Forget all ids of a produced column. -/
def stripColumn (c : Column) : RawColumn :=
  { name := c.name, tasks := c.tasks.map stripTask }

/-- Forget all ids of a raw column. -/
def stripRawColumn (c : RawColumn) : RawColumn :=
  { name := c.name, tasks := c.tasks.map stripRawTask }

/-- Forget all ids of a produced board. -/
def stripBoard (b : Board) : RawBoard :=
  { name := b.name, columns := b.columns.map stripColumn }

/-- Forget all ids of a raw board. -/
def stripRawBoard (b : RawBoard) : RawBoard :=
  { name := b.name, columns := b.columns.map stripRawColumn }

theorem generateTaskId_ne_empty (n : Nat) (r : String) : generateTaskId n r ≠ "" := by
  intro h
  have hd : (generateTaskId n r).data = [] := by rw [h]
  rw [show (generateTaskId n r).data =
    "task-".data ++ (natToString n).data ++ "-".data ++ r.data from rfl] at hd
  simp at hd

theorem ne_empty_isEmpty_false {s : String} (h : s ≠ "") : s.data.isEmpty = false := by
  cases hsd : s.data with
  | nil =>
    exfalso
    apply h
    cases s with
    | mk l => cases hsd; rfl
  | cons c cs => rfl

theorem ensureTasks_ids_ne (e : Nat → Nat × String) :
    ∀ (k : Nat) (ts : List RawTask), ∀ t ∈ (ensureTasks e k ts).2, t.id ≠ "" := by
  intro k ts
  induction ts generalizing k with
  | nil => intro t ht; simp [ensureTasks] at ht
  | cons t0 rest ih =>
    intro t ht
    by_cases hf : idFalsy t0.id
    · simp only [ensureTasks, if_pos hf, List.mem_cons] at ht
      rcases ht with h | h
      · rw [h]
        exact generateTaskId_ne_empty _ _
      · exact ih (k + 1) t h
    · simp only [ensureTasks, if_neg hf, List.mem_cons] at ht
      rcases ht with h | h
      · rw [h]
        cases hid : t0.id with
        | none => rw [hid] at hf; exact absurd rfl hf
        | some s =>
          rw [hid] at hf
          simp only [idFalsy] at hf
          simp only [hid, Option.getD_some, ne_eq]
          intro hs
          rw [hs] at hf
          exact hf rfl
      · exact ih k t h

theorem ensureTasks_round (e2 : Nat → Nat × String) :
    ∀ (k : Nat) (ts : List Task), (∀ t ∈ ts, t.id ≠ "") →
    ensureTasks e2 k (ts.map taskToRaw) = (k, ts) := by
  intro k ts
  induction ts generalizing k with
  | nil => intro _; rfl
  | cons t rest ih =>
    intro h
    have hfalse : idFalsy (taskToRaw t).id = false := by
      simp only [taskToRaw, idFalsy]
      exact ne_empty_isEmpty_false (h t (by simp))
    simp only [List.map_cons, ensureTasks, hfalse, Bool.false_eq_true, if_false,
      ih k (fun x hx => h x (by simp [hx]))]
    rfl

theorem ensureTasks_strip (e : Nat → Nat × String) :
    ∀ (k : Nat) (ts : List RawTask),
    ((ensureTasks e k ts).2).map stripTask = ts.map stripRawTask := by
  intro k ts
  induction ts generalizing k with
  | nil => rfl
  | cons t rest ih =>
    by_cases hf : idFalsy t.id
    · simp only [ensureTasks, if_pos hf, List.map_cons, ih (k + 1)]
      rfl
    · simp only [ensureTasks, if_neg hf, List.map_cons, ih k]
      rfl

theorem ensureColumns_ids_ne (e : Nat → Nat × String) :
    ∀ (k : Nat) (cs : List RawColumn),
    ∀ c ∈ (ensureColumns e k cs).2, ∀ t ∈ c.tasks, t.id ≠ "" := by
  intro k cs
  induction cs generalizing k with
  | nil => intro c hc; simp [ensureColumns] at hc
  | cons c0 rest ih =>
    intro c hc t ht
    simp only [ensureColumns, List.mem_cons] at hc
    rcases hc with h | h
    · rw [h] at ht
      exact ensureTasks_ids_ne e k c0.tasks t ht
    · exact ih _ c h t ht

theorem ensureColumns_round (e2 : Nat → Nat × String) :
    ∀ (k : Nat) (cs : List Column), (∀ c ∈ cs, ∀ t ∈ c.tasks, t.id ≠ "") →
    ensureColumns e2 k (cs.map columnToRaw) = (k, cs) := by
  intro k cs
  induction cs generalizing k with
  | nil => intro _; rfl
  | cons c rest ih =>
    intro h
    have htasks : ensureTasks e2 k ((columnToRaw c).tasks) = (k, c.tasks) :=
      ensureTasks_round e2 k c.tasks (h c (by simp))
    simp only [List.map_cons, ensureColumns, htasks,
      ih k (fun x hx => h x (by simp [hx]))]
    rfl

theorem ensureColumns_strip (e : Nat → Nat × String) :
    ∀ (k : Nat) (cs : List RawColumn),
    ((ensureColumns e k cs).2).map stripColumn = cs.map stripRawColumn := by
  intro k cs
  induction cs generalizing k with
  | nil => rfl
  | cons c rest ih =>
    simp only [ensureColumns, List.map_cons, ih]
    refine congrArg (· :: _) ?_
    simp only [stripColumn, stripRawColumn]
    rw [ensureTasks_strip]

theorem ensureBoards_ids_ne (e : Nat → Nat × String) :
    ∀ (k : Nat) (bs : List RawBoard),
    ∀ b ∈ (ensureBoards e k bs).2, ∀ c ∈ b.columns, ∀ t ∈ c.tasks, t.id ≠ "" := by
  intro k bs
  induction bs generalizing k with
  | nil => intro b hb; simp [ensureBoards] at hb
  | cons b0 rest ih =>
    intro b hb c hc t ht
    simp only [ensureBoards, List.mem_cons] at hb
    rcases hb with h | h
    · rw [h] at hc
      exact ensureColumns_ids_ne e k b0.columns c hc t ht
    · exact ih _ b h c hc t ht

theorem ensureBoards_round (e2 : Nat → Nat × String) :
    ∀ (k : Nat) (bs : List Board), (∀ b ∈ bs, ∀ c ∈ b.columns, ∀ t ∈ c.tasks, t.id ≠ "") →
    ensureBoards e2 k (bs.map boardToRaw) = (k, bs) := by
  intro k bs
  induction bs generalizing k with
  | nil => intro _; rfl
  | cons b rest ih =>
    intro h
    have hcols : ensureColumns e2 k ((boardToRaw b).columns) = (k, b.columns) :=
      ensureColumns_round e2 k b.columns (h b (by simp))
    simp only [List.map_cons, ensureBoards, hcols,
      ih k (fun x hx => h x (by simp [hx]))]
    rfl

theorem ensureBoards_strip (e : Nat → Nat × String) :
    ∀ (k : Nat) (bs : List RawBoard),
    ((ensureBoards e k bs).2).map stripBoard = bs.map stripRawBoard := by
  intro k bs
  induction bs generalizing k with
  | nil => rfl
  | cons b rest ih =>
    simp only [ensureBoards, List.map_cons, ih]
    refine congrArg (· :: _) ?_
    simp only [stripBoard, stripRawBoard]
    rw [ensureColumns_strip]

/-- C8: ensureTaskIds is idempotent — applying it to its own output (read
back as raw boards) returns that output unchanged, for any generator
entropy, so present ids are never regenerated — it is order- and
field-preserving (erasing ids projects the output onto the input), and
every task in its output carries a non-empty id. -/
theorem ensureTaskIds_spec (e1 e2 : Nat → Nat × String) (boards : List RawBoard) :
    ensureTaskIds e2 ((ensureTaskIds e1 boards).map boardToRaw) =
      ensureTaskIds e1 boards ∧
    (ensureTaskIds e1 boards).map stripBoard = boards.map stripRawBoard ∧
    (∀ b ∈ ensureTaskIds e1 boards, ∀ c ∈ b.columns, ∀ t ∈ c.tasks, t.id ≠ "") := by
  refine ⟨?_, ?_, ?_⟩
  · unfold ensureTaskIds
    rw [ensureBoards_round e2 0 (ensureBoards e1 0 boards).2
      (ensureBoards_ids_ne e1 0 boards)]
  · exact ensureBoards_strip e1 0 boards
  · exact ensureBoards_ids_ne e1 0 boards

def wEnt : Nat → Nat × String := fun k => (k, "r")

def wRawBoards : List RawBoard :=
  [⟨"Board", [⟨"Todo", [⟨none, "a", none, none, none⟩,
                        ⟨some "id1", "b", none, none, none⟩]⟩]⟩]

/-- Witness for C8: the transform applied twice to a concrete raw list with
one missing id equals its own first output. -/
theorem ensureTaskIds_spec_witness :
    ensureTaskIds wEnt ((ensureTaskIds wEnt wRawBoards).map boardToRaw) =
      ensureTaskIds wEnt wRawBoards :=
  (ensureTaskIds_spec wEnt wEnt wRawBoards).1

/-! ### The central store, from src/src/store/useStore.ts -/

/-- Theme preference values, from src/src/store/useStore.ts. -/
inductive Theme where
  | light
  | dark
deriving Repr, DecidableEq

/-- Toast kinds (the `type` field of UiToast in src/src/types/types.ts). -/
inductive ToastKind where
  | success
  | error
  | info
deriving Repr, DecidableEq

/-- A toast, from src/src/types/types.ts. -/
structure UiToast where
  id : String
  kind : ToastKind
  message : String
deriving Repr, DecidableEq

/-- The store state relevant to the verified claims, from
src/src/store/useStore.ts: the boards slice, theme, busy keys and toasts. -/
structure StoreState where
  boards : List Board
  theme : Theme
  loadingKeys : List String
  toasts : List UiToast
deriving Repr, DecidableEq

/-- From src/src/store/useStore.ts: addToast appends. -/
def addToast (t : UiToast) (s : StoreState) : StoreState :=
  { s with toasts := s.toasts ++ [t] }

/-- From src/src/store/useStore.ts: removeToast filters by id. -/
def removeToast (id : String) (s : StoreState) : StoreState :=
  { s with toasts := s.toasts.filter (fun t => t.id != id) }

/-- From src/src/store/useStore.ts: addLoadingKey appends unless present. -/
def addLoadingKey (key : String) (s : StoreState) : StoreState :=
  if s.loadingKeys.contains key then s
  else { s with loadingKeys := s.loadingKeys ++ [key] }

/-- From src/src/store/useStore.ts: removeLoadingKey filters the key out. -/
def removeLoadingKey (key : String) (s : StoreState) : StoreState :=
  { s with loadingKeys := s.loadingKeys.filter (fun k => k != key) }

/-- From src/src/store/useStore.ts: setTheme replaces the theme. -/
def setTheme (th : Theme) (s : StoreState) : StoreState := { s with theme := th }

/-- Modelled from the spec: the SET_BOARDS case of the missing boardsReducer
wholesale-replaces the boards sequence (validated by the SET_BOARDS test in
src/unnamed/part_018). -/
def dispatchSetBoards (bs : List Board) (s : StoreState) : StoreState :=
  { s with boards := bs }

/-- The initial store state from src/src/store/useStore.ts: boards start
empty and are populated by hydration (the eagerly-read theme is abstracted
to its default). -/
def initStore : StoreState := ⟨[], .light, [], []⟩

/-! ### The persistence mirror, from src/unnamed/part_008 -/

/-- From src/unnamed/part_008 (persistence subscribe): the listener body —
write the full boards snapshot to durable local storage when the boards
sequence is non-empty (`some` is a write, `none` no write). -/
def persistenceMirror (s : StoreState) : Option (List Board) :=
  if s.boards.length > 0 then some s.boards else none

/-- One store update: apply the update, then run the subscribed mirror
listener on the new state. The code subscribes with plain zustand
`useStore.subscribe(listener)` (no selector), so the listener runs after
every store update, whatever slice changed. -/
def storeUpdate (u : StoreState → StoreState) (s : StoreState) :
    StoreState × Option (List Board) :=
  (u s, persistenceMirror (u s))

/-- C4 (amended): the persistence mirror runs on every store update and
writes exactly when the resulting boards sequence is non-empty; an empty
boards sequence is never written, and every write carries the current boards
snapshot. (It is not gated on the boards reference changing: the subscription
is whole-state.) -/
theorem persistence_mirror_spec (u : StoreState → StoreState) (s : StoreState) :
    ((storeUpdate u s).2 = none ↔ (u s).boards = []) ∧
    (∀ w, (storeUpdate u s).2 = some w → w = (u s).boards ∧ w ≠ []) := by
  unfold storeUpdate persistenceMirror
  by_cases h : (u s).boards = []
  · rw [if_neg (by rw [h]; simp)]
    exact ⟨by simp [h], by simp⟩
  · rw [if_pos (by cases hb : (u s).boards with
      | nil => exact absurd hb h
      | cons x xs => simp)]
    refine ⟨by simp [h], ?_⟩
    intro w hw
    injection hw with hw
    exact ⟨hw.symm, hw ▸ h⟩

def wToast : UiToast := ⟨"toast-1", .info, "saved"⟩

def wBoardP : Board := ⟨"Web", [⟨"Todo", []⟩]⟩

def wStoreP : StoreState := ⟨[wBoardP], .light, [], []⟩

/-- Witness for C4: a concrete write of a non-empty boards snapshot. -/
theorem persistence_mirror_spec_witness :
    ([wBoardP] : List Board) = (addToast wToast wStoreP).boards ∧
    ([wBoardP] : List Board) ≠ [] :=
  (persistence_mirror_spec (addToast wToast) wStoreP).2 [wBoardP] (by decide)

/-- Counterexample to C4 as stated: a toast-only update leaves the boards
sequence unchanged, yet the mirror still writes the (non-empty) snapshot —
the subscription is whole-state, not boards-slice. -/
theorem persistence_mirror_cex :
    (storeUpdate (addToast wToast) wStoreP).1.boards = wStoreP.boards ∧
    (storeUpdate (addToast wToast) wStoreP).2 = some wStoreP.boards := by decide

/-! ### The hydration controller, from src/unnamed/part_008 -/

/-- The observable effects of a hydration attempt resolution, from
src/unnamed/part_008: dispatching SET_BOARDS, recording the load error,
surfacing the error toast, and stopping the busy key. -/
inductive HydEff where
  | dispatchedBoards (boards : List Board)
  | errorRecorded (message : String)
  | noticeShown (message : String)
  | busyStopped
deriving Repr, DecidableEq

/-- Hydration controller state: the store, the recorded load error, the
number of effect runs started so far (each run is one attempt generation),
and each generation's cancelled flag. -/
structure HydState where
  store : StoreState
  loadError : Option String
  attempts : Nat
  cancelled : Nat → Bool

/-- From src/unnamed/part_008: a new effect run: clear the load error, start
the busy key, and open attempt generation `attempts` with a fresh (false)
cancelled flag. -/
def startAttempt (m : HydState) : HydState :=
  { store := addLoadingKey "initBoards" m.store,
    loadError := m.loadError,
    attempts := m.attempts + 1,
    cancelled := fun g => if g = m.attempts then false else m.cancelled g }

/-- From src/unnamed/part_008: the effect body also runs `setLoadError(null)`
when it starts; combined entry point for one run. -/
def runEffect (m : HydState) : HydState :=
  startAttempt { m with loadError := none }

/-- From src/unnamed/part_008: the effect cleanup (`cancelled = true`),
executed on deactivation and before a retry re-runs the effect. -/
def cancelCurrent (m : HydState) : HydState :=
  { m with cancelled := fun g => if g + 1 = m.attempts then true else m.cancelled g }

/-- From src/unnamed/part_008: resolution of attempt `g`'s fetch with result
`r`; `tid` is the generated toast id. Every branch of the async body — the
success dispatch, the catch recording the error and showing the toast, and
the finally stopping the busy key — is guarded by the attempt's cancelled
flag. -/
def resolveAttempt (tid : String) (m : HydState) (g : Nat)
    (r : Except String (List Board)) : HydState × List HydEff :=
  if m.cancelled g then (m, [])
  else
    match r with
    | .ok bs =>
      ({ m with store := removeLoadingKey "initBoards" (dispatchSetBoards bs m.store) },
       [.dispatchedBoards bs, .busyStopped])
    | .error msg =>
      ({ m with loadError := some msg,
                store := removeLoadingKey "initBoards"
                  (addToast ⟨tid, .error, msg⟩ m.store) },
       [.errorRecorded msg, .noticeShown msg, .busyStopped])

/-- The controller's interleaving events: mount, retry (cleanup then new
run), deactivation, and the asynchronous resolutions. -/
inductive HydEvent where
  | activate
  | retry
  | deactivate
  | resolve (g : Nat) (tid : String) (r : Except String (List Board))

/-- One controller step. -/
def hydStep (m : HydState) : HydEvent → HydState × List HydEff
  | .activate => (runEffect m, [])
  | .retry => (runEffect (cancelCurrent m), [])
  | .deactivate => (cancelCurrent m, [])
  | .resolve g tid r => resolveAttempt tid m g r

/-- Run a sequence of controller events, collecting all effects. -/
def runHyd : HydState → List HydEvent → HydState × List HydEff
  | m, [] => (m, [])
  | m, e :: es =>
    ((runHyd (hydStep m e).1 es).1,
     (hydStep m e).2 ++ (runHyd (hydStep m e).1 es).2)

/-- The controller state at mount time. -/
def initHyd : HydState := ⟨initStore, none, 0, fun _ => false⟩

/-- C3: a superseded hydration attempt — its cancelled flag was set by
deactivation or by a retry re-running the effect before its fetch resolved —
performs nothing when it resolves: no dispatch, no error recording, no
notice, no state change at all, whether it succeeded or failed; hence in the
slow-attempt-races-fast-retry interleaving the boards reflect the most
recent attempt's result even after the stale attempt resolves. -/
theorem stale_hydration_suppressed (m : HydState) (g : Nat) (tid : String)
    (r : Except String (List Board)) (h : m.cancelled g = true) :
    resolveAttempt tid m g r = (m, []) ∧
    (∀ bs1 bs2 : List Board, ∀ tid1 tid2 : String,
      (runHyd initHyd
        [.activate, .retry, .resolve 1 tid2 (.ok bs2),
         .resolve 0 tid1 (.ok bs1)]).1.store.boards = bs2) := by
  constructor
  · unfold resolveAttempt
    rw [h]
    simp
  · intro bs1 bs2 tid1 tid2
    rfl

def wBoardH : Board := ⟨"Web", []⟩

/-- Witness for C3: after a retry supersedes the first attempt, the first
attempt's late success resolution is a no-op on the controller state. -/
theorem stale_hydration_suppressed_witness :
    resolveAttempt "t" (runHyd initHyd [.activate, .retry]).1 0 (.ok [wBoardH]) =
      ((runHyd initHyd [.activate, .retry]).1, []) :=
  (stale_hydration_suppressed (runHyd initHyd [.activate, .retry]).1 0 "t"
    (.ok [wBoardH]) (by rfl)).1

/-- C5: when a live (non-superseded) hydration attempt fails, the boards
slice is unchanged — no SET_BOARDS dispatch at all, in particular no
fallback to default data — the error message is recorded, an error notice is
surfaced, and the busy key is cleared; resolution is a total function of the
result, so no exception escapes the controller boundary. -/
theorem hydration_failure_spec (m : HydState) (g : Nat) (tid msg : String)
    (h : m.cancelled g = false) :
    (resolveAttempt tid m g (.error msg)).1.store.boards = m.store.boards ∧
    (resolveAttempt tid m g (.error msg)).1.loadError = some msg ∧
    (resolveAttempt tid m g (.error msg)).1.store.toasts =
      m.store.toasts ++ [⟨tid, .error, msg⟩] ∧
    (resolveAttempt tid m g (.error msg)).1.store.loadingKeys =
      m.store.loadingKeys.filter (fun k => k != "initBoards") ∧
    (resolveAttempt tid m g (.error msg)).2 =
      [.errorRecorded msg, .noticeShown msg, .busyStopped] ∧
    (∀ bs, HydEff.dispatchedBoards bs ∉ (resolveAttempt tid m g (.error msg)).2) := by
  unfold resolveAttempt
  rw [h]
  simp [removeLoadingKey, addToast]

/-- Witness for C5: a concrete failing first attempt leaves boards empty and
records the message. -/
theorem hydration_failure_spec_witness :
    (resolveAttempt "t" (runHyd initHyd [.activate]).1 0 (.error "boom")).1.store.boards
      = [] ∧
    (resolveAttempt "t" (runHyd initHyd [.activate]).1 0 (.error "boom")).1.loadError
      = some "boom" := by
  have h := hydration_failure_spec (runHyd initHyd [.activate]).1 0 "t" "boom" (by rfl)
  exact ⟨by rw [h.1]; rfl, h.2.1⟩

/-! ### The busy-key minimum-duration scheduler, from src/src/context/UiContext.tsx -/

/-- MIN_LOADING_DURATION_MS from src/src/context/UiContext.tsx. -/
def MIN_LOADING_DURATION_MS : Nat := 300

/-- Lookup in a string-keyed association list (Map.get). -/
def alookup (k : String) (l : List (String × Nat)) : Option Nat :=
  (l.find? (fun p => p.1 == k)).map (fun p => p.2)

/-- Deletion from a string-keyed association list (Map.delete). -/
def aerase (k : String) (l : List (String × Nat)) : List (String × Nat) :=
  l.filter (fun p => p.1 != k)

/-- Overwrite in a string-keyed association list (Map.set). -/
def ainsert (k : String) (v : Nat) (l : List (String × Nat)) : List (String × Nat) :=
  (k, v) :: aerase k l

/-- The busy-key scheduler state, from src/src/context/UiContext.tsx: the
store's busy set, the per-key start timestamps (loadingStartTimesRef), the
pending removal timers with their fire times (stopTimeoutsRef), and the
clock (Date.now is monotone: each event clamps it upward). -/
structure UiSchedState where
  now : Nat
  busy : List String
  startTimes : List (String × Nat)
  pendStops : List (String × Nat)
deriving Repr, DecidableEq

/-- From startLoading: cancel and forget any pending removal timer for the
key, record the start timestamp, add the busy key (deduplicated, as in the
store's addLoadingKey). -/
def uiStart (k : String) (t : Nat) (m : UiSchedState) : UiSchedState :=
  { now := max m.now t,
    busy := if m.busy.contains k then m.busy else m.busy ++ [k],
    startTimes := ainsert k (max m.now t) m.startTimes,
    pendStops := aerase k m.pendStops }

/-- The doStop closure of stopLoading: forget the start time and the timer
entry and remove the busy key. -/
def uiDoStop (k : String) (m : UiSchedState) : UiSchedState :=
  { m with busy := m.busy.filter (fun x => x != k),
           startTimes := aerase k m.startTimes,
           pendStops := aerase k m.pendStops }

/-- From stopLoading: elapsed time since the recorded start (zero when none
is recorded). -/
def uiElapsed (k : String) (now2 : Nat) (m : UiSchedState) : Nat :=
  match alookup k m.startTimes with
  | some s => now2 - s
  | none => 0

/-- From stopLoading: when some of the minimum duration remains, clear any
existing timer and (re)schedule the removal at now + remaining (Map.set
overwrites); otherwise stop immediately. Nat subtraction is the code's
`Math.max(0, MIN_LOADING_DURATION_MS - elapsed)`. -/
def uiStop (k : String) (t : Nat) (m : UiSchedState) : UiSchedState :=
  if MIN_LOADING_DURATION_MS - uiElapsed k (max m.now t) m > 0 then
    { now := max m.now t, busy := m.busy, startTimes := m.startTimes,
      pendStops := ainsert k
        (max m.now t + (MIN_LOADING_DURATION_MS - uiElapsed k (max m.now t) m))
        m.pendStops }
  else
    { (uiDoStop k m) with now := max m.now t }

/-- A pending removal timer fires: only a still-scheduled timer fires, and no
earlier than its scheduled time; it runs doStop. A cleared timer (absent
entry) never fires. -/
def uiFire (k : String) (t : Nat) (m : UiSchedState) : UiSchedState :=
  match alookup k m.pendStops with
  | none => m
  | some T => if T ≤ max m.now t then { (uiDoStop k m) with now := max m.now t } else m

/-- The scheduler's events with their timestamps. -/
inductive UiEvent where
  | start (k : String) (t : Nat)
  | stop (k : String) (t : Nat)
  | fire (k : String) (t : Nat)

/-- One scheduler step. -/
def uiStep (m : UiSchedState) : UiEvent → UiSchedState
  | .start k t => uiStart k t m
  | .stop k t => uiStop k t m
  | .fire k t => uiFire k t m

/-- Run a sequence of scheduler events. -/
def runUi : UiSchedState → List UiEvent → UiSchedState
  | m, [] => m
  | m, e :: es => runUi (uiStep m e) es

/-- The initial scheduler state. -/
def initUi : UiSchedState := ⟨0, [], [], []⟩

/-- Scheduler invariant: every recorded start time is in the past, and every
pending removal timer for a key with a recorded start fires no earlier than
that start plus the minimum duration. -/
def UiInv (m : UiSchedState) : Prop :=
  (∀ k s, alookup k m.startTimes = some s → s ≤ m.now) ∧
  (∀ k T, alookup k m.pendStops = some T →
    ∀ s, alookup k m.startTimes = some s → s + MIN_LOADING_DURATION_MS ≤ T)

theorem alookup_ainsert_self (k : String) (v : Nat) (l : List (String × Nat)) :
    alookup k (ainsert k v l) = some v := by
  simp [alookup, ainsert, List.find?_cons_of_pos]

theorem alookup_aerase_self (k : String) (l : List (String × Nat)) :
    alookup k (aerase k l) = none := by
  induction l with
  | nil => rfl
  | cons p rest ih =>
    unfold aerase at ih ⊢
    rw [List.filter_cons]
    by_cases hp : p.1 = k
    · simp only [hp, bne_self_eq_false, Bool.false_eq_true, if_false]
      exact ih
    · rw [if_pos (by simpa using hp)]
      unfold alookup
      rw [List.find?_cons_of_neg _ (by simpa using hp)]
      exact ih

theorem alookup_aerase_ne {k k2 : String} (h : k2 ≠ k) (l : List (String × Nat)) :
    alookup k2 (aerase k l) = alookup k2 l := by
  induction l with
  | nil => rfl
  | cons p rest ih =>
    unfold aerase at ih ⊢
    rw [List.filter_cons]
    by_cases hp : p.1 = k
    · simp only [hp, bne_self_eq_false, Bool.false_eq_true, if_false]
      rw [ih]
      unfold alookup
      rw [List.find?_cons_of_neg _ (by rw [hp]; simpa using Ne.symm h)]
    · rw [if_pos (by simpa using hp)]
      by_cases hp2 : p.1 = k2
      · unfold alookup
        rw [List.find?_cons_of_pos _ (by simpa using hp2),
          List.find?_cons_of_pos _ (by simpa using hp2)]
      · unfold alookup
        rw [List.find?_cons_of_neg _ (by simpa using hp2),
          List.find?_cons_of_neg _ (by simpa using hp2)]
        exact ih

theorem alookup_ainsert_ne {k k2 : String} (h : k2 ≠ k) (v : Nat)
    (l : List (String × Nat)) : alookup k2 (ainsert k v l) = alookup k2 l := by
  unfold ainsert
  have h1 : alookup k2 ((k, v) :: aerase k l) = alookup k2 (aerase k l) := by
    unfold alookup
    rw [List.find?_cons_of_neg _ (by simpa using Ne.symm h)]
  rw [h1, alookup_aerase_ne h]

theorem uiStep_inv {m : UiSchedState} (h : UiInv m) (ev : UiEvent) :
    UiInv (uiStep m ev) := by
  obtain ⟨h1, h2⟩ := h
  cases ev with
  | start k t =>
    dsimp only [uiStep, uiStart, UiInv]
    constructor
    · intro k2 s hs
      by_cases hk : k2 = k
      · subst hk
        rw [alookup_ainsert_self] at hs
        injection hs with hs
        omega
      · rw [alookup_ainsert_ne hk] at hs
        exact le_trans (h1 k2 s hs) (le_max_left _ _)
    · intro k2 T hT s hs
      by_cases hk : k2 = k
      · subst hk
        rw [alookup_aerase_self] at hT
        exact absurd hT (by simp)
      · rw [alookup_aerase_ne hk] at hT
        rw [alookup_ainsert_ne hk] at hs
        exact h2 k2 T hT s hs
  | stop k t =>
    dsimp only [uiStep, uiStop]
    by_cases hc : MIN_LOADING_DURATION_MS - uiElapsed k (max m.now t) m > 0
    · rw [if_pos hc]
      dsimp only [UiInv]
      constructor
      · intro k2 s hs
        exact le_trans (h1 k2 s hs) (le_max_left _ _)
      · intro k2 T hT s hs
        by_cases hk : k2 = k
        · subst hk
          rw [alookup_ainsert_self] at hT
          injection hT with hT
          unfold uiElapsed at hT hc
          simp only [hs] at hT hc
          have hsn := h1 _ s hs
          have hmx : m.now ≤ max m.now t := le_max_left _ _
          omega
        · rw [alookup_ainsert_ne hk] at hT
          exact h2 k2 T hT s hs
    · rw [if_neg hc]
      dsimp only [UiInv, uiDoStop]
      constructor
      · intro k2 s hs
        by_cases hk : k2 = k
        · subst hk
          rw [alookup_aerase_self] at hs
          exact absurd hs (by simp)
        · rw [alookup_aerase_ne hk] at hs
          exact le_trans (h1 k2 s hs) (le_max_left _ _)
      · intro k2 T hT s hs
        by_cases hk : k2 = k
        · subst hk
          rw [alookup_aerase_self] at hT
          exact absurd hT (by simp)
        · rw [alookup_aerase_ne hk] at hT
          rw [alookup_aerase_ne hk] at hs
          exact h2 k2 T hT s hs
  | fire k t =>
    dsimp only [uiStep, uiFire]
    cases hT0 : alookup k m.pendStops with
    | none =>
      simp only [hT0]
      exact ⟨h1, h2⟩
    | some T =>
      simp only [hT0]
      by_cases hle : T ≤ max m.now t
      · rw [if_pos hle]
        dsimp only [UiInv, uiDoStop]
        constructor
        · intro k2 s hs
          by_cases hk : k2 = k
          · subst hk
            rw [alookup_aerase_self] at hs
            exact absurd hs (by simp)
          · rw [alookup_aerase_ne hk] at hs
            exact le_trans (h1 k2 s hs) (le_max_left _ _)
        · intro k2 T2 hT s hs
          by_cases hk : k2 = k
          · subst hk
            rw [alookup_aerase_self] at hT
            exact absurd hT (by simp)
          · rw [alookup_aerase_ne hk] at hT
            rw [alookup_aerase_ne hk] at hs
            exact h2 k2 T2 hT s hs
      · rw [if_neg hle]
        exact ⟨h1, h2⟩

/-- C9: the busy-key scheduler keeps a started key in the busy set for at
least the minimum duration from its recorded start: an immediate stop
schedules removal exactly at start + minimum, and in every reachable state,
whatever event removes the key does so at an effective time no earlier than
its start plus the minimum duration; starting a key again cancels any
pending removal (no flicker) and re-stamps the start time. -/
theorem busy_min_duration (k : String) (s : Nat) :
    (∀ tr, UiInv (runUi initUi tr)) ∧
    (∀ m ev, UiInv m → alookup k m.startTimes = some s → k ∈ m.busy →
      k ∉ (uiStep m ev).busy →
      s + MIN_LOADING_DURATION_MS ≤ (uiStep m ev).now) ∧
    (∀ m t, alookup k (uiStep m (.start k t)).pendStops = none ∧
      k ∈ (uiStep m (.start k t)).busy ∧
      alookup k (uiStep m (.start k t)).startTimes =
        some (uiStep m (.start k t)).now) := by
  refine ⟨?_, ?_, ?_⟩
  · have hgen : ∀ (tr : List UiEvent) (m : UiSchedState), UiInv m →
        UiInv (runUi m tr) := by
      intro tr
      induction tr with
      | nil => intro m hm; exact hm
      | cons e es ih =>
        intro m hm
        exact ih _ (uiStep_inv hm e)
    intro tr
    refine hgen tr initUi ⟨?_, ?_⟩
    · intro k2 s2 hs
      exact absurd hs (by simp [alookup, initUi])
    · intro k2 T hT
      exact absurd hT (by simp [alookup, initUi])
  · intro m ev hinv hstart hbusy hrem
    obtain ⟨h1, h2⟩ := hinv
    cases ev with
    | start k2 t =>
      exfalso
      apply hrem
      dsimp only [uiStep, uiStart]
      split
      · exact hbusy
      · exact List.mem_append_left _ hbusy
    | stop k2 t =>
      dsimp only [uiStep, uiStop] at hrem ⊢
      by_cases hc : MIN_LOADING_DURATION_MS - uiElapsed k2 (max m.now t) m > 0
      · rw [if_pos hc] at hrem
        exact absurd hbusy hrem
      · rw [if_neg hc] at hrem ⊢
        by_cases hk : k = k2
        · subst hk
          unfold uiElapsed at hc
          simp only [hstart] at hc
          have hsn := h1 k s hstart
          have hmx : m.now ≤ max m.now t := le_max_left _ _
          dsimp only [uiDoStop]
          omega
        · exfalso
          apply hrem
          show k ∈ m.busy.filter (fun x => x != k2)
          rw [List.mem_filter]
          exact ⟨hbusy, by simpa using hk⟩
    | fire k2 t =>
      dsimp only [uiStep, uiFire] at hrem ⊢
      by_cases hk : k = k2
      · subst hk
        cases hT0 : alookup k m.pendStops with
        | none =>
          simp only [hT0] at hrem
          exact absurd hbusy hrem
        | some T =>
          simp only [hT0] at hrem ⊢
          by_cases hle : T ≤ max m.now t
          · rw [if_pos hle]
            have hTs := h2 k T hT0 s hstart
            exact le_trans hTs hle
          · rw [if_neg hle] at hrem
            exact absurd hbusy hrem
      · exfalso
        apply hrem
        cases hT0 : alookup k2 m.pendStops with
        | none =>
          simp only [hT0]
          exact hbusy
        | some T =>
          simp only [hT0]
          by_cases hle : T ≤ max m.now t
          · rw [if_pos hle]
            show k ∈ m.busy.filter (fun x => x != k2)
            rw [List.mem_filter]
            exact ⟨hbusy, by simpa using hk⟩
          · rw [if_neg hle]
            exact hbusy
  · intro m t
    refine ⟨?_, ?_, ?_⟩
    · dsimp only [uiStep, uiStart]
      exact alookup_aerase_self k m.pendStops
    · dsimp only [uiStep, uiStart]
      split
      · rename_i hc
        simpa using hc
      · exact List.mem_append_right _ (by simp)
    · dsimp only [uiStep, uiStart]
      exact alookup_ainsert_self k (max m.now t) m.startTimes

/-- Witness for C9: start at 10, stop immediately at 10 — the key stays busy
and its removal timer, firing at 310, removes it no earlier than 10 + 300. -/
theorem busy_min_duration_witness :
    10 + MIN_LOADING_DURATION_MS ≤
      (uiStep (runUi initUi [.start "a" 10, .stop "a" 10]) (.fire "a" 310)).now := by
  have h := busy_min_duration "a" 10
  exact h.2.1 (runUi initUi [.start "a" 10, .stop "a" 10]) (.fire "a" 310)
    (h.1 [.start "a" 10, .stop "a" 10]) (by decide) (by decide) (by decide)

end Kanban
